import Mathlib

/-!
Verification of the codemap symbol store and parsers against their
specification.

The repository's persistent symbol store (`codemap/core/map_store.py`) and
symbol data model (`codemap/parsers/base.py`) are not among the staged source
files — only their test suite and the language parsers are — so those two
modules are modelled here from the specification's own words (each such
definition carries a doc comment saying so).  The Swift and Ruby parsers are
embedded from their staged sources.

Machine conventions: strings are Lean `String`s handled as their `List Char`
data; scores are rationals; Python `dict`s become association lists; the JSON
files on disk become a `JValue` tree, with a file either parseable or
corrupt.  All definitions are structural recursions, so every one of them
evaluates inside the kernel.
-/

namespace Codemap

/-- Lower-case a string character by character (the model of Python's
`str.lower()` over the ASCII range, which is all the scoring logic needs). -/
def lowerStr (s : String) : String := String.mk (s.data.map Char.toLower)

/-- Split a character list at every separator character recognised by `p`;
the separators are dropped and the (possibly empty) pieces kept in order. -/
def splitBy (p : Char → Bool) : List Char → List (List Char)
  | [] => [[]]
  | c :: rest =>
    if p c then [] :: splitBy p rest
    else
      match splitBy p rest with
      | [] => [[c]]
      | w :: ws => (c :: w) :: ws

/-- Interleave the separator character between the pieces (inverse of
`splitBy` for a single-character separator). -/
def joinWith (sep : Char) : List (List Char) → List Char
  | [] => []
  | [w] => w
  | w :: rest => w ++ sep :: joinWith sep rest

/-- A word separator of the scoring engine: whitespace or a hyphen
(spec §4.3 step 3: "split ... into word sets on whitespace and hyphens"). -/
def wordSep (c : Char) : Bool := c.isWhitespace || c == '-'

/-- Modelled from the spec: the word set of a string — split on whitespace
and hyphens, empty pieces dropped, duplicates collapsed (a set). -/
def wordSet (s : String) : Finset String :=
  (((splitBy wordSep s.data).filter (· ≠ [])).map (fun l => String.mk l)).toFinset

/-- `prefixCheck needle hay`: does `needle` occur at the start of `hay`? -/
def prefixCheck : List Char → List Char → Bool
  | [], _ => true
  | _ :: _, [] => false
  | a :: as, b :: bs => a == b && prefixCheck as bs

/-- `subStrCheck needle hay`: does `needle` occur contiguously in `hay`? -/
def subStrCheck (needle : List Char) : List Char → Bool
  | [] => needle.isEmpty
  | c :: rest => prefixCheck needle (c :: rest) || subStrCheck needle rest

/-- `strContains hay needle`: the model of Python's `needle in hay`. -/
def strContains (hay needle : String) : Bool := subStrCheck needle.data hay.data

/-- One row-extension step of the Levenshtein dynamic program: given the
previous row's remaining cells and the cell just computed, produce the
remaining cells of the new row. -/
def levRowAux (x : Char) : List Char → List Nat → Nat → List Nat
  | [], _, _ => []
  | _ :: _, [], _ => []
  | _ :: _, [_], _ => []
  | y :: ys, rj :: rj1 :: rest, sj =>
    let sj1 := min (sj + 1) (min (rj1 + 1) (rj + (if x == y then 0 else 1)))
    sj1 :: levRowAux x ys (rj1 :: rest) sj1

/-- The full new row of the Levenshtein dynamic program for one more
character `x` of the first string. -/
def levRow (x : Char) (ys : List Char) (prev : List Nat) : List Nat :=
  match prev with
  | [] => []
  | r0 :: _ => (r0 + 1) :: levRowAux x ys prev (r0 + 1)

/-- Levenshtein edit distance by the standard row dynamic program
(structural recursion, so it evaluates in the kernel). -/
def levDist (xs ys : List Char) : Nat :=
  (xs.foldl (fun row x => levRow x ys row) (List.range (ys.length + 1))).getLast?.getD 0

/-- The rational `n / d` (and `0` when `d = 0`), built as a reduced
numerator/denominator pair so that it is a literal the kernel can evaluate;
`mkQ_eq_div` below proves it equal to ordinary division in `ℚ`. -/
def mkQ (n d : Nat) : ℚ :=
  if h : d = 0 then 0
  else
    ⟨(n / Nat.gcd n d : Nat), d / Nat.gcd n d,
      Nat.div_ne_zero_iff_of_dvd (Nat.gcd_dvd_right n d) |>.mpr
        ⟨h, Nat.gcd_ne_zero_right h⟩,
      Nat.coprime_div_gcd_div_gcd (Nat.gcd_pos_of_pos_right n (Nat.pos_of_ne_zero h))⟩

/-- Modelled from the spec: the normalized string-similarity ratio of §4.3
step 4 ("e.g. edit-distance-based, in [0,1]"; §9 leaves the exact measure
open): `1 - levDist/max-length`, written as the one fraction
`(m - levDist) / m`, and `1` for two empty strings. -/
def strSim (a b : String) : ℚ :=
  let m := max a.data.length b.data.length
  if m = 0 then 1 else mkQ (m - levDist a.data b.data) m

/-- Modelled from the spec: the minimum similarity (3/5) a fuzzy-only
candidate must clear (§4.3 step 4; the exact threshold is the
implementer's choice). -/
def simThreshold : ℚ := mkQ 3 5

/-- Modelled from the spec: the score of a fuzzy-only match that cleared
the threshold — `2/5` of the similarity ratio, written as the one fraction
`2(m - levDist) / 5m`, so it stays strictly between 0 and the word-overlap
tier 0.5 and grows as the edit distance shrinks (§4.3 step 4, §9). -/
def fuzzyScore (a b : String) : ℚ :=
  let m := max a.data.length b.data.length
  mkQ (2 * (m - levDist a.data b.data)) (5 * m)

/-- Modelled from the spec (the store module is not under `src/`; §4.3 gives
the scoring steps, and `TestMatchScore` the signature
`_match_score(query, query_words, candidate_text, fuzzy)`): case-insensitive
scoring — 1.0 exact, 0.9 substring, 0.7 full word overlap, 0.5 at least half
word overlap, then (fuzzy only) the thresholded similarity fallback, else 0. -/
def matchScore (query : String) (queryWords : Finset String) (candidateText : String)
    (fuzzy : Bool) : ℚ :=
  let q := lowerStr query
  let c := lowerStr candidateText
  if q = c then 1
  else if strContains c q then mkQ 9 10
  else
    let overlap : ℚ := mkQ (queryWords ∩ wordSet c).card queryWords.card
    if overlap = 1 then mkQ 7 10
    else if mkQ 1 2 ≤ overlap then mkQ 1 2
    else if fuzzy then (if simThreshold ≤ strSim q c then fuzzyScore q c else 0)
    else 0

/-- The score of a query against one candidate text: `matchScore` with the
query's own word set, as `find_symbol` invokes it. -/
def score (query candidateText : String) (fuzzy : Bool) : ℚ :=
  matchScore query (wordSet (lowerStr query)) candidateText fuzzy

/-- The word-overlap ratio of §4.3 step 3 between a query and a candidate,
both lower-cased: `|query_words ∩ candidate_words| / |query_words|`. -/
def wordOverlap (query candidateText : String) : ℚ :=
  mkQ (wordSet (lowerStr query) ∩ wordSet (lowerStr candidateText)).card
    (wordSet (lowerStr query)).card


mutual

/-- Modelled from the spec (§3 "Symbol", and the `Symbol(...)` constructions
visible in the staged parsers): a named node with a type tag, an inclusive
1-based line range, optional signature and docstring, and ordered children.
The children sit in the mutually defined `SymbolList` (Lean 4.14 needs the
mutual form for structural recursion; it is the list of child symbols). -/
inductive Symbol where
  | mk (name : String) (type : String) (lines : Nat × Nat) (signature : Option String)
      (docstring : Option String) (children : SymbolList)
deriving DecidableEq

/-- The list of children of a `Symbol` (mutually inductive with it). -/
inductive SymbolList where
  | nil
  | cons (head : Symbol) (tail : SymbolList)
deriving DecidableEq

end

def Symbol.name : Symbol → String
  | .mk n _ _ _ _ _ => n

def Symbol.type : Symbol → String
  | .mk _ t _ _ _ _ => t

def Symbol.lines : Symbol → Nat × Nat
  | .mk _ _ l _ _ _ => l

def Symbol.signature : Symbol → Option String
  | .mk _ _ _ sg _ _ => sg

def Symbol.docstring : Symbol → Option String
  | .mk _ _ _ _ d _ => d

def Symbol.children : Symbol → SymbolList
  | .mk _ _ _ _ _ cs => cs

def SymbolList.ofList : List Symbol → SymbolList
  | [] => .nil
  | s :: rest => .cons s (SymbolList.ofList rest)

def SymbolList.toList : SymbolList → List Symbol
  | .nil => []
  | .cons s rest => s :: rest.toList

mutual

/-- The number of nodes of a symbol tree (itself plus all nested children);
`update_stats` counts every Symbol node this way (spec §4.2). -/
def countSymbols : Symbol → Nat
  | .mk _ _ _ _ _ cs => 1 + countSymbolList cs

def countSymbolList : SymbolList → Nat
  | .nil => 0
  | .cons s rest => countSymbols s + countSymbolList rest

end

mutual

/-- Every node of a symbol tree, depth first, the node itself first
(the search engine's traversal order of one file's tree, spec §4.3). -/
def flattenSym : Symbol → List Symbol
  | .mk n t l sg d cs => .mk n t l sg d cs :: flattenSymList cs

def flattenSymList : SymbolList → List Symbol
  | .nil => []
  | .cons s rest => flattenSym s ++ flattenSymList rest

end

mutual

/-- A JSON value, the shape of every persisted file (spec §6): null, bool,
integer, string, array, object.  Arrays and objects are the mutually
defined `JArr`/`JObj` so that every traversal is structural. -/
inductive JValue where
  | jnull
  | jbool (b : Bool)
  | jnum (n : Int)
  | jstr (s : String)
  | jarr (items : JArr)
  | jobj (fields : JObj)
deriving DecidableEq

/-- A JSON array (list of `JValue`, mutually inductive with it). -/
inductive JArr where
  | nil
  | cons (head : JValue) (tail : JArr)
deriving DecidableEq

/-- A JSON object: ordered key/value fields. -/
inductive JObj where
  | nil
  | cons (key : String) (val : JValue) (tail : JObj)
deriving DecidableEq

end

/-- The value at a key of a JSON object (first occurrence). -/
def jLookup (k : String) : JObj → Option JValue
  | .nil => none
  | .cons k' v rest => if k = k' then some v else jLookup k rest

def JObj.keys : JObj → List String
  | .nil => []
  | .cons k _ rest => k :: rest.keys

def JObj.valuesOf : JObj → List JValue
  | .nil => []
  | .cons _ v rest => v :: rest.valuesOf

/-- The optional tail of a serialized symbol dict: `signature` and
`docstring` only when present, `children` only when non-empty (`childArr`
is the already-serialized children array). -/
def symDictTail (sg d : Option String) (cs : SymbolList) (childArr : JArr) : JObj :=
  let childPart : JObj :=
    match cs with
    | .nil => .nil
    | .cons _ _ => .cons "children" (.jarr childArr) .nil
  let docPart : JObj :=
    match d with
    | some y => .cons "docstring" (.jstr y) childPart
    | none => childPart
  match sg with
  | some x => .cons "signature" (.jstr x) docPart
  | none => docPart

mutual

/-- Modelled from the spec (§6 "Symbol serialization"): the serialized dict
`(name, type, lines: [start, end], signature?, docstring?, children?)`,
each optional field omitted entirely when absent (an absent children list
is the empty one). -/
def symToDict : Symbol → JValue
  | .mk n t l sg d cs =>
    .jobj (.cons "name" (.jstr n) (.cons "type" (.jstr t)
      (.cons "lines" (.jarr (.cons (.jnum l.1) (.cons (.jnum l.2) .nil)))
        (symDictTail sg d cs (symsToJArr cs)))))

def symsToJArr : SymbolList → JArr
  | .nil => .nil
  | .cons s rest => .cons (symToDict s) (symsToJArr rest)

end

mutual

/-- Modelled from the spec (§6, and `TestSymbol.test_symbol_from_dict`):
deserialize one symbol from its dict — `name`, `type` and `lines` are
required, `signature`/`docstring`/`children` optional with a missing
children key meaning no children. -/
def symFromDict : JValue → Option Symbol
  | .jobj fs => symFromFields fs none none none none none none
  | _ => none

/-- Walk the fields of a serialized symbol dict accumulating each
recognised key (a later duplicate key wins, as in a JSON object). -/
def symFromFields : JObj → Option String → Option String → Option (Nat × Nat) →
    Option String → Option String → Option SymbolList → Option Symbol
  | .nil, nOpt, tOpt, lOpt, sgOpt, dOpt, csOpt =>
    match nOpt, tOpt, lOpt with
    | some n, some t, some l => some (.mk n t l sgOpt dOpt (csOpt.getD .nil))
    | _, _, _ => none
  | .cons k v rest, nOpt, tOpt, lOpt, sgOpt, dOpt, csOpt =>
    if k = "name" then
      match v with
      | .jstr s => symFromFields rest (some s) tOpt lOpt sgOpt dOpt csOpt
      | _ => none
    else if k = "type" then
      match v with
      | .jstr s => symFromFields rest nOpt (some s) lOpt sgOpt dOpt csOpt
      | _ => none
    else if k = "lines" then
      match v with
      | .jarr (.cons (.jnum a) (.cons (.jnum b) .nil)) =>
        symFromFields rest nOpt tOpt (some (a.toNat, b.toNat)) sgOpt dOpt csOpt
      | _ => none
    else if k = "signature" then
      match v with
      | .jstr s => symFromFields rest nOpt tOpt lOpt (some s) dOpt csOpt
      | _ => none
    else if k = "docstring" then
      match v with
      | .jstr s => symFromFields rest nOpt tOpt lOpt sgOpt (some s) csOpt
      | _ => none
    else if k = "children" then
      match v with
      | .jarr items =>
        match symsFromJArr items with
        | some cs => symFromFields rest nOpt tOpt lOpt sgOpt dOpt (some cs)
        | none => none
      | _ => none
    else symFromFields rest nOpt tOpt lOpt sgOpt dOpt csOpt

def symsFromJArr : JArr → Option SymbolList
  | .nil => some .nil
  | .cons j rest =>
    match symFromDict j, symsFromJArr rest with
    | some s, some ss => some (.cons s ss)
    | _, _ => none

end

/-- First value at a key of an association list (a Python `dict` lookup). -/
def lookupA {α : Type} (k : String) : List (String × α) → Option α
  | [] => none
  | (k', v) :: rest => if k = k' then some v else lookupA k rest

/-- Upsert into an association list: replace the first binding of the key in
place, or append a new binding (a Python `dict` assignment). -/
def insertA {α : Type} (k : String) (v : α) : List (String × α) → List (String × α)
  | [] => [(k, v)]
  | (k', v') :: rest => if k = k' then (k, v) :: rest else (k', v') :: insertA k v rest

/-- Delete the first binding of a key from an association list (a Python
`dict` deletion). -/
def eraseA {α : Type} (k : String) : List (String × α) → List (String × α)
  | [] => []
  | (k', v') :: rest => if k = k' then rest else (k', v') :: eraseA k rest

/-- The `/`-separated components of a relative POSIX path. -/
def pathParts (s : String) : List (List Char) := splitBy (· == '/') s.data

/-- The containing directory of a relative path (`""` for a root-level
file): all components but the last, rejoined. -/
def parentDir (relPath : String) : String :=
  String.mk (joinWith '/' (pathParts relPath).dropLast)

/-- The basename of a relative path: its last `/`-separated component. -/
def baseName (relPath : String) : String :=
  String.mk ((pathParts relPath).getLast?.getD [])

/-- The directory itself and every ancestor directory up to but excluding
the root (spec §4.2): the non-empty component prefixes of `dir`. -/
def ancestorDirs (dir : String) : List String :=
  if dir = "" then []
  else
    ((List.range (pathParts dir).length).map
      (fun i => String.mk (joinWith '/' ((pathParts dir).take (i + 1))))).filter (· ≠ "")

/-- Modelled from the spec (§3 "FileEntry"): one indexed file.  Wall-clock
time does not exist in this model, so `indexedAt` carries the fixed stamp
`indexStamp` (§4.2 requires `update_file` to be idempotent on identical
arguments, so the stamp cannot distinguish persisted states). -/
structure FileEntry where
  hash : String
  indexedAt : String
  language : String
  lines : Nat
  symbols : List Symbol
deriving DecidableEq

/-- The fixed `indexed_at` stamp of this model (see `FileEntry`). -/
def indexStamp : String := ""

/-- Modelled from the spec (§3 "DirectoryMap"): the file entries of exactly
one directory, keyed by basename. -/
structure DirectoryMap where
  version : String
  directory : String
  files : List (String × FileEntry)
deriving DecidableEq

/-- Aggregate counters of the root manifest (spec §3 "RootManifest"). -/
structure Stats where
  totalFiles : Nat
  totalSymbols : Nat
deriving DecidableEq

/-- Modelled from the spec (§3 "RootManifest"): version, root path, opaque
config snapshot, the tracked directory set, and stats. -/
structure RootManifest where
  version : String
  root : String
  config : JValue
  directories : List String
  stats : Stats
deriving DecidableEq

/-- The schema version written by this model. -/
def storeVersion : String := "1.0"

/-- Modelled from the spec (§4.2 "Map Store"): the in-memory store — the
root manifest plus every directory map keyed by its relative directory path
(the root directory's own map is keyed `""`). -/
structure MapStore where
  manifest : RootManifest
  dirmaps : List (String × DirectoryMap)
deriving DecidableEq

/-- A store with an empty manifest: no directories, no files, zero stats. -/
def emptyStore : MapStore :=
  ⟨⟨storeVersion, "", .jnull, [], ⟨0, 0⟩⟩, []⟩

/-- Add each directory to the tracked list unless already present,
preserving order (the incremental bookkeeping of spec §9). -/
def addDirs (new cur : List String) : List String :=
  new.foldl (fun acc d => if d ∈ acc then acc else acc ++ [d]) cur

/-- Does some directory map at or below `d` hold at least one file?
(`d` is the map's own path or one of its ancestors.) -/
def hasFileBelow (dms : List (String × DirectoryMap)) (d : String) : Bool :=
  dms.any (fun p => (ancestorDirs p.1).contains d && !p.2.files.isEmpty)

/-- Modelled from the spec (§4.2 `update_file`): upsert a FileEntry at the
directory implied by `relPath`, creating the directory map if missing and
recording the directory and every ancestor up to but excluding the root in
the manifest's `directories`. -/
def updateFile (s : MapStore) (relPath hash language : String) (lineCount : Nat)
    (symbols : List Symbol) : MapStore :=
  let dir := parentDir relPath
  let base := baseName relPath
  let entry : FileEntry := ⟨hash, indexStamp, language, lineCount, symbols⟩
  let dm := (lookupA dir s.dirmaps).getD ⟨storeVersion, dir, []⟩
  let dm2 := { dm with files := insertA base entry dm.files }
  { s with
    dirmaps := insertA dir dm2 s.dirmaps
    manifest :=
      { s.manifest with directories := addDirs (ancestorDirs dir) s.manifest.directories } }

/-- Modelled from the spec (§4.2 `remove_file`): remove the entry if
present and report whether it existed; a directory map emptied by the
removal is deleted, and every directory left without any tracked file at or
below it is dropped from the manifest's `directories`. -/
def removeFile (s : MapStore) (relPath : String) : Bool × MapStore :=
  let dir := parentDir relPath
  let base := baseName relPath
  match lookupA dir s.dirmaps with
  | none => (false, s)
  | some dm =>
    match lookupA base dm.files with
    | none => (false, s)
    | some _ =>
      let files2 := eraseA base dm.files
      if files2.isEmpty then
        let dms2 := eraseA dir s.dirmaps
        (true,
          { s with
            dirmaps := dms2
            manifest :=
              { s.manifest with
                directories := s.manifest.directories.filter (fun d => hasFileBelow dms2 d) } })
      else
        (true, { s with dirmaps := insertA dir { dm with files := files2 } s.dirmaps })

/-- Modelled from the spec (§4.2 `get_file`): pure lookup. -/
def getFile (s : MapStore) (relPath : String) : Option FileEntry :=
  (lookupA (parentDir relPath) s.dirmaps).bind (fun dm => lookupA (baseName relPath) dm.files)

/-- Join a directory path and a basename back into a relative path. -/
def joinRel (d b : String) : String := if d = "" then b else d ++ "/" ++ b

/-- Modelled from the spec (§4.2 `get_all_files`): every tracked
`(relative path, entry)` pair, in directory-traversal order. -/
def getAllFiles (s : MapStore) : List (String × FileEntry) :=
  s.dirmaps.flatMap (fun p => p.2.files.map (fun f => (joinRel p.1 f.1, f.2)))

/-- Symbol-node count of one entry (top-level symbols and all nested). -/
def entrySymbolCount (e : FileEntry) : Nat := (e.symbols.map countSymbols).sum

/-- Modelled from the spec (§4.2 `update_stats`): recompute `total_files`
and `total_symbols` across all directory maps and store them. -/
def updateStats (s : MapStore) : MapStore :=
  { s with
    manifest :=
      { s.manifest with
        stats :=
          ⟨(s.dirmaps.map (fun p => p.2.files.length)).sum,
            (s.dirmaps.map (fun p => (p.2.files.map (fun f => entrySymbolCount f.2)).sum)).sum⟩ } }

/-- Modelled from the spec (§4.2 `set_metadata`): attach the root path and
a configuration snapshot to the manifest, nothing else. -/
def setMetadata (s : MapStore) (root : String) (config : JValue) : MapStore :=
  { s with manifest := { s.manifest with root := root, config := config } }

/-- One ranked search result (spec §4.3: "matched name, symbol type, owning
file's relative path, and line range", plus its score). -/
structure MatchRecord where
  name : String
  type : String
  file : String
  lines : Nat × Nat
  score : ℚ
deriving DecidableEq

mutual

/-- Modelled from the spec (§4.3): the match records a symbol tree
contributes — the node's name is scored, a docstring is scored too but only
in fuzzy mode (the node keeps the better of the two scores), a record is
kept iff its score is positive, and children follow depth first. -/
def symRecords (query : String) (qw : Finset String) (fuzzy : Bool) (file : String) :
    Symbol → List MatchRecord
  | .mk n t l _ d cs =>
    let nameScore := matchScore query qw n fuzzy
    let docScore :=
      if fuzzy then
        match d with
        | some ds => matchScore query qw ds fuzzy
        | none => 0
      else 0
    let sc := max nameScore docScore
    (if 0 < sc then [⟨n, t, file, l, sc⟩] else []) ++ symListRecords query qw fuzzy file cs

def symListRecords (query : String) (qw : Finset String) (fuzzy : Bool) (file : String) :
    SymbolList → List MatchRecord
  | .nil => []
  | .cons s rest =>
    symRecords query qw fuzzy file s ++ symListRecords query qw fuzzy file rest

end

/-- Insert a record into a list sorted by descending score, before the
first strictly lower score (stable for equal scores). -/
def insertByScore (r : MatchRecord) : List MatchRecord → List MatchRecord
  | [] => [r]
  | x :: xs => if x.score ≤ r.score then r :: x :: xs else x :: insertByScore r xs

/-- Stable insertion sort by descending score (spec §4.3: descending by
score, ties in traversal order). -/
def sortByScore : List MatchRecord → List MatchRecord
  | [] => []
  | r :: rest => insertByScore r (sortByScore rest)

/-- Modelled from the spec (§4.2/§4.3 `find_symbol`): score every symbol of
every tracked file (docstrings fuzzy-only), add each tracked file's basename
as a synthesized candidate of type `file` when fuzzy, keep positive scores,
apply the exact type filter, and sort by descending score. -/
def findSymbol (s : MapStore) (query : String) (fuzzy : Bool)
    (symbolType : Option String) : List MatchRecord :=
  let qw := wordSet (lowerStr query)
  let recs := s.dirmaps.flatMap (fun p =>
    p.2.files.flatMap (fun f =>
      let fpath := joinRel p.1 f.1
      f.2.symbols.flatMap (symRecords query qw fuzzy fpath) ++
        (if fuzzy then
          let sc := matchScore query qw f.1 fuzzy
          if 0 < sc then [⟨f.1, "file", fpath, (1, f.2.lines), sc⟩] else []
        else [])))
  let filtered :=
    match symbolType with
    | none => recs
    | some t => recs.filter (fun r => r.type = t)
  sortByScore filtered

/-- One public mutating operation of the store (the claims quantify over
every sequence of these). -/
inductive StoreOp where
  | update (relPath hash language : String) (lineCount : Nat) (symbols : List Symbol)
  | remove (relPath : String)
  | stats
  | meta (root : String) (config : JValue)

/-- Apply one operation. -/
def applyOp (s : MapStore) : StoreOp → MapStore
  | .update relPath hash language lineCount symbols =>
    updateFile s relPath hash language lineCount symbols
  | .remove relPath => (removeFile s relPath).2
  | .stats => updateStats s
  | .meta root config => setMetadata s root config

/-- The store state after a sequence of operations from the empty store. -/
def applyOps (ops : List StoreOp) : MapStore := ops.foldl applyOp emptyStore

/-- The content of one persisted file: parseable JSON, or corrupt text that
fails to parse (spec §7 "Corrupted persisted state"). -/
inductive Stored where
  | json (j : JValue)
  | corrupt
deriving DecidableEq

/-- The root manifest's location under the hidden index root (the tests pin
it to `.codemap/.codemap.json`). -/
def manifestFilePath : String := ".codemap/.codemap.json"

/-- A directory map's location: the fixed filename at the mirrored
directory under the hidden index root (spec §4.1, and the tests'
`.codemap/<dir>/.codemap.json`). -/
def dirMapFilePath (d : String) : String := ".codemap/" ++ d ++ "/.codemap.json"

/-- Serialize one file entry (spec §6 "Directory map" schema:
`hash, indexed_at, language, lines, symbols`). -/
def entryToDict (e : FileEntry) : JValue :=
  .jobj (.cons "hash" (.jstr e.hash) (.cons "indexed_at" (.jstr e.indexedAt)
    (.cons "language" (.jstr e.language) (.cons "lines" (.jnum e.lines)
      (.cons "symbols" (.jarr (symsToJArr (SymbolList.ofList e.symbols))) .nil)))))

/-- Deserialize one file entry. -/
def entryFromDict : JValue → Option FileEntry
  | .jobj fs =>
    match jLookup "hash" fs, jLookup "indexed_at" fs, jLookup "language" fs,
        jLookup "lines" fs, jLookup "symbols" fs with
    | some (.jstr h), some (.jstr ia), some (.jstr lang), some (.jnum n),
        some (.jarr items) =>
      match symsFromJArr items with
      | some syms => some ⟨h, ia, lang, n.toNat, syms.toList⟩
      | none => none
    | _, _, _, _, _ => none
  | _ => none

/-- Serialize a `files` mapping, basename by basename. -/
def filesToJObj : List (String × FileEntry) → JObj
  | [] => .nil
  | (b, e) :: rest => .cons b (entryToDict e) (filesToJObj rest)

/-- Deserialize a `files` mapping. -/
def filesFromJObj : JObj → Option (List (String × FileEntry))
  | .nil => some []
  | .cons b v rest =>
    match entryFromDict v, filesFromJObj rest with
    | some e, some more => some ((b, e) :: more)
    | _, _ => none

/-- Serialize one directory map (spec §6:
`(version, directory, files: (basename: entry))`). -/
def dirMapToDict (dm : DirectoryMap) : JValue :=
  .jobj (.cons "version" (.jstr dm.version) (.cons "directory" (.jstr dm.directory)
    (.cons "files" (.jobj (filesToJObj dm.files)) .nil)))

/-- Deserialize one directory map. -/
def dirMapFromDict : JValue → Option DirectoryMap
  | .jobj fs =>
    match jLookup "version" fs, jLookup "directory" fs, jLookup "files" fs with
    | some (.jstr v), some (.jstr d), some (.jobj files) =>
      match filesFromJObj files with
      | some fl => some ⟨v, d, fl⟩
      | none => none
    | _, _, _ => none
  | _ => none

/-- Serialize a list of strings as a JSON array. -/
def stringsToJArr : List String → JArr
  | [] => .nil
  | s :: rest => .cons (.jstr s) (stringsToJArr rest)

/-- Deserialize a JSON array of strings. -/
def stringsFromJArr : JArr → Option (List String)
  | .nil => some []
  | .cons (.jstr s) rest =>
    match stringsFromJArr rest with
    | some more => some (s :: more)
    | none => none
  | .cons _ _ => none

/-- Serialize the root manifest file (spec §6 "Root manifest" schema:
`(version, root, config, directories, stats)`), together with the root
directory's own file entries, which live in the root manifest's own file
(spec §3, §4.1: root-level files are part of the RootManifest's file). -/
def manifestToDict (m : RootManifest) (rootFiles : List (String × FileEntry)) : JValue :=
  .jobj (.cons "version" (.jstr m.version) (.cons "root" (.jstr m.root)
    (.cons "config" m.config (.cons "directories" (.jarr (stringsToJArr m.directories))
      (.cons "stats" (.jobj (.cons "total_files" (.jnum m.stats.totalFiles)
        (.cons "total_symbols" (.jnum m.stats.totalSymbols) .nil)))
        (.cons "files" (.jobj (filesToJObj rootFiles)) .nil))))))

/-- Deserialize the root manifest file: the manifest and the root
directory's file entries. -/
def manifestFromDict : JValue → Option (RootManifest × List (String × FileEntry))
  | .jobj fs =>
    match jLookup "version" fs, jLookup "root" fs, jLookup "config" fs,
        jLookup "directories" fs, jLookup "stats" fs, jLookup "files" fs with
    | some (.jstr v), some (.jstr r), some config, some (.jarr dirs),
        some (.jobj statsObj), some (.jobj files) =>
      match stringsFromJArr dirs, jLookup "total_files" statsObj,
          jLookup "total_symbols" statsObj, filesFromJObj files with
      | some dl, some (.jnum tf), some (.jnum ts), some fl =>
        some (⟨v, r, config, dl, ⟨tf.toNat, ts.toNat⟩⟩, fl)
      | _, _, _, _ => none
    | _, _, _, _, _, _ => none
  | _ => none

/-- Modelled from the spec (§4.2 `save`): persist the root manifest (with
the root directory's files inside it) and one file per non-root directory
map, each at its mirrored path. -/
def save (s : MapStore) : List (String × Stored) :=
  (manifestFilePath,
      .json (manifestToDict s.manifest (((lookupA "" s.dirmaps).map DirectoryMap.files).getD []))) ::
    (s.dirmaps.filter (fun p => p.1 ≠ "")).map
      (fun p => (dirMapFilePath p.1, .json (dirMapToDict p.2)))

/-- The not-found failure of `load` (spec §7: a root with no manifest at
all is a distinct failure, the model of `FileNotFoundError`). -/
inductive LoadFailure where
  | notFound
deriving DecidableEq

/-- Read the directory map of each tracked directory back from disk; a
missing or corrupted file degrades to no entries for that directory. -/
def loadDirMaps (fs : List (String × Stored)) : List String → List (String × DirectoryMap)
  | [] => []
  | d :: rest =>
    match lookupA (dirMapFilePath d) fs with
    | some (.json j) =>
      match dirMapFromDict j with
      | some dm => (d, dm) :: loadDirMaps fs rest
      | none => loadDirMaps fs rest
    | _ => loadDirMaps fs rest

/-- Modelled from the spec (§4.2 `load`, §7): fail with a not-found
condition when no root manifest file exists; degrade a present but
unparseable manifest to the empty manifest instead of propagating the
failure; otherwise rebuild the store from the manifest, its embedded
root-level files and the tracked directories' map files. -/
def load (fs : List (String × Stored)) : Except LoadFailure MapStore :=
  match lookupA manifestFilePath fs with
  | none => .error .notFound
  | some .corrupt => .ok emptyStore
  | some (.json j) =>
    match manifestFromDict j with
    | none => .ok emptyStore
    | some (m, rootFiles) =>
      .ok ⟨m, ("", ⟨storeVersion, "", rootFiles⟩) :: loadDirMaps fs m.directories⟩

/-- The characters Python's regex class `\s` matches over ASCII text
(`swift_parser.py` cleans sources with an `re.MULTILINE` substitution). -/
def pyWS (c : Char) : Bool :=
  c == ' ' || c == '\t' || c == '\n' || c == '\r' || c == '\x0b' || c == '\x0c'

/-- A character of Python's regex class `\w` (ASCII): the `\b` boundary in
the directive pattern holds where the next character is not one of these. -/
def isWordChar (c : Char) : Bool := c.isAlphanum || c == '_'

/-- Does the word boundary `\b` hold after the first `n` characters? -/
def boundaryAt (cs : List Char) (n : Nat) : Bool :=
  match cs.drop n with
  | [] => true
  | c :: _ => !isWordChar c

/-- Match `#(if|else|elseif|endif)\b` at the start of `cs`
(`_DIRECTIVE_RE` of `swift_parser.py`); ordered alternation plus the
boundary picks the longest keyword that ends at a non-word character. -/
def directiveKw (cs : List Char) : Option Nat :=
  match cs with
  | '#' :: r =>
    if prefixCheck "elseif".data r && boundaryAt r 6 then some 7
    else if prefixCheck "endif".data r && boundaryAt r 5 then some 6
    else if prefixCheck "else".data r && boundaryAt r 4 then some 5
    else if prefixCheck "if".data r && boundaryAt r 2 then some 3
    else none
  | _ => none

/-- A line matched by `_DIRECTIVE_RE` from its own start: optional
whitespace, then `#if`/`#else`/`#elseif`/`#endif` at a word boundary. -/
def isDirectiveLine (line : List Char) : Bool := (directiveKw (line.dropWhile pyWS)).isSome

/-- A line consisting of whitespace only. -/
def isBlankLine (line : List Char) : Bool := line.all pyWS

/-- The line-by-line form of `_DIRECTIVE_RE.sub("", source)`: a directive
line is replaced by one empty line, and because the pattern's leading `^\s*`
also absorbs the newlines of whitespace-only lines immediately before the
directive, the run of pending blank lines preceding it is deleted with it
(the substitution's leftmost-match semantics; `acc` holds finished lines,
`pending` the blank run not yet anchored to what follows). -/
def stripLinesAux (acc pending : List (List Char)) : List (List Char) → List (List Char)
  | [] => acc ++ pending
  | l :: rest =>
    if isDirectiveLine l then stripLinesAux (acc ++ [[]]) [] rest
    else if isBlankLine l then stripLinesAux acc (pending ++ [l]) rest
    else stripLinesAux (acc ++ pending ++ [l]) [] rest

/-- `_DIRECTIVE_RE.sub("", source)` of `swift_parser.py` (line 66): the
compiler-directive substitution the Swift parser applies before handing the
source to tree-sitter. -/
def stripDirectives (source : String) : String :=
  String.mk (joinWith '\n' (stripLinesAux [] [] (splitBy (· == '\n') source.data)))

/-- A line that begins, after optional whitespace, with `#if`, `#else`,
`#elseif` or `#endif` — the blanked lines of the claim's reading of the
substitution (a plain prefix test, no word boundary). -/
def claimDirectiveLine (line : List Char) : Bool :=
  let r := line.dropWhile pyWS
  prefixCheck "#if".data r || prefixCheck "#else".data r || prefixCheck "#endif".data r

/-- The claim's cleaning: every line that begins (after optional
whitespace) with a directive keyword replaced by an empty line, all other
lines kept. -/
def blankDirectiveLines (source : String) : String :=
  String.mk (joinWith '\n'
    ((splitBy (· == '\n') source.data).map (fun l => if claimDirectiveLine l then [] else l)))

/-- `SwiftParser.parse` (`swift_parser.py` lines 64-67): substitute the
compiler directives away, then delegate to the tree-sitter base parser.
`TreeSitterParser.parse` is not under `src/`, so it is the abstract
`baseParse` collaborator here (spec §6: a parser maps source text to the
symbol list of that text). -/
def swiftParse (baseParse : String → List Symbol) (source : String) : List Symbol :=
  baseParse (stripDirectives source)

/-- A concrete base parser of the collaborator contract, used to witness
that different cleaned texts give different parses: one symbol spanning
every line of the text it is given (spec §3: `lines` is the 1-based range
in the parsed text). -/
def lineSpanParse (source : String) : List Symbol :=
  [.mk "file" "file" (1, (splitBy (· == '\n') source.data).length) none none .nil]

/-- A tree-sitter syntax node as `ruby_parser.py` consumes it: its node
type and its ordered children (text payloads live behind the abstract
extraction function, so they are not modelled). -/
inductive TSNode where
  | mk (typ : String) (children : List TSNode)

def TSNode.typ : TSNode → String
  | .mk t _ => t

def TSNode.children : TSNode → List TSNode
  | .mk _ cs => cs

/-- The node types `RUBY_CONFIG.node_mappings` maps (`ruby_parser.py`
lines 15-36). -/
def rubyNodeMappings : List String := ["module", "class", "method", "singleton_method"]

/-- `RubyParser._extract_singleton_class_methods` (`ruby_parser.py` lines
87-106): each `method` node inside the `body_statement` of a
`class << self` block, retagged as a `singleton_method`.  The underlying
`_extract_symbol` (in the missing `treesitter_base.py`) is the abstract
`extract` parameter. -/
def rubyExtractSingletonMethods (extract : TSNode → Option Symbol) (node : TSNode) :
    List Symbol :=
  node.children.flatMap (fun child =>
    if child.typ = "body_statement" then
      child.children.flatMap (fun bodyChild =>
        if bodyChild.typ = "method" then
          match extract bodyChild with
          | some symbol =>
            [.mk symbol.name "singleton_method" symbol.lines symbol.signature
              symbol.docstring symbol.children]
          | none => []
        else [])
    else [])

/-- `RubyParser._extract_children` (`ruby_parser.py` lines 50-85): extract
each mapped child node; a symbol coming back typed `function` is rebuilt as
a `method` (and `async_function` as `async_method`) with every other field
kept; `singleton_class` children contribute their singleton methods. -/
def rubyExtractChildren (extract : TSNode → Option Symbol) (bodyNode : TSNode) :
    List Symbol :=
  bodyNode.children.flatMap (fun child =>
    if rubyNodeMappings.contains child.typ then
      match extract child with
      | some symbol =>
        if symbol.type = "function" then
          [.mk symbol.name "method" symbol.lines symbol.signature symbol.docstring
            symbol.children]
        else if symbol.type = "async_function" then
          [.mk symbol.name "async_method" symbol.lines symbol.signature symbol.docstring
            symbol.children]
        else [symbol]
      | none => []
    else if child.typ = "singleton_class" then
      rubyExtractSingletonMethods extract child
    else [])

/-- The sample store of `TestFuzzySearch._make_store`: three files, one
with a docstring-bearing section, one whose name appears nowhere among the
symbol names, one with a class and two methods. -/
def demoStore : MapStore :=
  applyOps
    [.update "docs/pricing-strategy.md" "hash1" "markdown" 100
        [.mk "Pricing Restructure" "section" (1, 50) none
            (some "How to restructure the monetization model") .nil,
          .mk "Revenue Projections" "section" (51, 100) none none .nil],
      .update "linkedin-openclaw-post.md" "hash2" "markdown" 40
        [.mk "Post body" "section" (1, 30) none none .nil,
          .mk "Suggested subreddits" "section" (31, 40) none none .nil],
      .update "src/user_service.py" "hash3" "python" 80
        [.mk "UserService" "class" (1, 80) none none
            (.cons (.mk "get_user" "method" (10, 30) none none .nil)
              (.cons (.mk "create_user" "method" (32, 60) none none .nil) .nil))]]

/-- The fields of a serialized dict (`JObj.nil` for a non-object). -/
def jFieldsOf : JValue → JObj
  | .jobj fs => fs
  | _ => .nil

/-- The non-root directories whose directory map holds at least one file
(what claim C4 says `directories` always equals). -/
def dirsHoldingFiles (s : MapStore) : List String :=
  ((s.dirmaps.filter (fun p => !p.2.files.isEmpty)).map Prod.fst).filter (· ≠ "")

/-- The bookkeeping a store satisfies in normal operation (and every state
reachable by the public operations does): directory-map keys are unique,
the tracked directory list is duplicate-free, never lists the root, and
lists every directory that owns a map. -/
def wfStore (s : MapStore) : Prop :=
  (s.dirmaps.map Prod.fst).Nodup ∧
    s.manifest.directories.Nodup ∧
    "" ∉ s.manifest.directories ∧
    ∀ p ∈ s.dirmaps, p.1 ≠ "" → p.1 ∈ s.manifest.directories

instance (s : MapStore) : Decidable (wfStore s) := by
  unfold wfStore; infer_instance

/-- The directory bookkeeping invariant every reachable store satisfies:
no persisted directory map is empty, and the manifest's `directories` is
exactly the set of non-root directories with a tracked file at or below
them. -/
def storeInv (s : MapStore) : Prop :=
  (∀ p ∈ s.dirmaps, p.2.files ≠ []) ∧
    ∀ d, d ∈ s.manifest.directories ↔ (d ≠ "" ∧ hasFileBelow s.dirmaps d = true)

/-! ## Theorems -/

theorem mkQ_eq_div (n d : Nat) : mkQ n d = (n : ℚ) / d := by
  unfold mkQ
  split
  · subst ‹d = 0›; simp
  · rename_i h
    have hgQ : ((Nat.gcd n d : ℕ) : ℚ) ≠ 0 := by
      exact_mod_cast Nat.gcd_ne_zero_right h
    have hdQ : ((d : ℕ) : ℚ) ≠ 0 := by exact_mod_cast h
    rw [Rat.mk'_eq_divInt, Rat.divInt_eq_div, Int.cast_natCast, Int.cast_natCast,
      Nat.cast_div (Nat.gcd_dvd_left n d) hgQ, Nat.cast_div (Nat.gcd_dvd_right n d) hgQ,
      div_eq_div_iff (div_ne_zero hdQ hgQ) hdQ]
    ring

theorem mkQ_nonneg (n d : Nat) : 0 ≤ mkQ n d := by
  rw [mkQ_eq_div]; positivity

theorem mkQ_pos {n d : Nat} (hn : 0 < n) (hd : 0 < d) : 0 < mkQ n d := by
  rw [mkQ_eq_div]
  exact div_pos (by exact_mod_cast hn) (by exact_mod_cast hd)

theorem mkQ_half : mkQ 1 2 = (1 : ℚ)/2 := by rw [mkQ_eq_div]; norm_num

theorem strings_eq_of_data_eq {a b : String} (h : a.data = b.data) : a = b := by
  cases a; cases b; exact congrArg String.mk h

/-- C1: for every query and candidate, compared case-insensitively, the
score function returns 1.0 on equality; 0.9 on a proper substring hit;
otherwise 0.7 when the word-overlap ratio is 1, 0.5 when it is in
[0.5, 1); and 0.0 in every remaining case when fuzzy is false. -/
theorem scoreTiers (query candidateText : String) (fuzzy : Bool) :
    (lowerStr query = lowerStr candidateText → score query candidateText fuzzy = 1) ∧
    (lowerStr query ≠ lowerStr candidateText ∧
        strContains (lowerStr candidateText) (lowerStr query) = true →
      score query candidateText fuzzy = 9/10) ∧
    (lowerStr query ≠ lowerStr candidateText ∧
        strContains (lowerStr candidateText) (lowerStr query) = false ∧
        wordOverlap query candidateText = 1 →
      score query candidateText fuzzy = 7/10) ∧
    (lowerStr query ≠ lowerStr candidateText ∧
        strContains (lowerStr candidateText) (lowerStr query) = false ∧
        1/2 ≤ wordOverlap query candidateText ∧ wordOverlap query candidateText < 1 →
      score query candidateText fuzzy = 1/2) ∧
    (lowerStr query ≠ lowerStr candidateText ∧
        strContains (lowerStr candidateText) (lowerStr query) = false ∧
        wordOverlap query candidateText < 1/2 →
      score query candidateText false = 0) := by
  refine ⟨fun h => ?_, fun ⟨h1, h2⟩ => ?_, fun ⟨h1, h2, h3⟩ => ?_,
    fun ⟨h1, h2, h3, h4⟩ => ?_, fun ⟨h1, h2, h3⟩ => ?_⟩ <;>
    simp only [wordOverlap] at * <;>
    simp only [score, matchScore]
  · simp [h]
  · rw [if_neg h1, if_pos h2, mkQ_eq_div]; norm_num
  · rw [if_neg h1, if_neg (by simp [h2]), if_pos h3, mkQ_eq_div]; norm_num
  · rw [if_neg h1, if_neg (by simp [h2]), if_neg (ne_of_lt h4),
      if_pos (by rw [mkQ_half]; exact h3), mkQ_half]
  · rw [if_neg h1, if_neg (by simp [h2]), if_neg (ne_of_lt (lt_trans h3 (by norm_num))),
      if_neg (by rw [mkQ_half]; exact not_le.mpr h3)]
    simp

/-- C1 witness: the spec's five pinned scores, each obtained from
`scoreTiers` at the concrete pair. -/
theorem scoreTiersWitness :
    score "pricing" "pricing" false = 1 ∧
    score "pricing" "pricing restructure" false = 9/10 ∧
    score "user service" "user-service-manager" false = 7/10 ∧
    score "pricing revenue" "pricing-restructure" false = 1/2 ∧
    score "a b c d" "only-a-here" false = 0 :=
  ⟨(scoreTiers "pricing" "pricing" false).1 (by decide),
    (scoreTiers "pricing" "pricing restructure" false).2.1 ⟨by decide, by decide⟩,
    (scoreTiers "user service" "user-service-manager" false).2.2.1
      ⟨by decide, by decide, by decide⟩,
    (scoreTiers "pricing revenue" "pricing-restructure" false).2.2.2.1
      ⟨by decide, by decide,
        by rw [(show wordOverlap "pricing revenue" "pricing-restructure" = mkQ 1 2
             by decide), mkQ_half],
        by decide⟩,
    (scoreTiers "a b c d" "only-a-here" false).2.2.2.2
      ⟨by decide, by decide,
        by rw [(show wordOverlap "a b c d" "only-a-here" = mkQ 1 4 by decide), mkQ_eq_div]
           norm_num⟩⟩

theorem fuzzyScore_bounds {a b : String} (hne : a ≠ b)
    (hth : simThreshold ≤ strSim a b) :
    0 < fuzzyScore a b ∧ fuzzyScore a b < 1/2 := by
  have hm : max a.data.length b.data.length ≠ 0 := by
    intro h0
    apply hne
    apply strings_eq_of_data_eq
    have ha : a.data.length = 0 := by omega
    have hb : b.data.length = 0 := by omega
    rw [List.length_eq_zero] at ha hb
    rw [ha, hb]
  set m := max a.data.length b.data.length with hmdef
  set lev := levDist a.data b.data with hlevdef
  have hmpos : 0 < m := Nat.pos_of_ne_zero hm
  have hsim : strSim a b = mkQ (m - lev) m := by
    rw [strSim]
    simp only [← hmdef, ← hlevdef]
    rw [if_neg hm]
  rw [hsim, simThreshold, mkQ_eq_div, mkQ_eq_div] at hth
  have hmQ : (0 : ℚ) < (m : ℚ) := by exact_mod_cast hmpos
  rw [div_le_div_iff₀ (by norm_num) hmQ] at hth
  have hkey : 3 * m ≤ (m - lev) * 5 := by exact_mod_cast hth
  have hlev : lev < m := by omega
  have hfz : fuzzyScore a b = mkQ (2 * (m - lev)) (5 * m) := by
    rw [fuzzyScore]
  constructor
  · rw [hfz]
    exact mkQ_pos (by omega) (by omega)
  · rw [hfz, mkQ_eq_div,
      div_lt_div_iff₀ (by exact_mod_cast (by omega : 0 < 5 * m)) (by norm_num : (0:ℚ) < 2)]
    exact_mod_cast (show 2 * (m - lev) * 2 < 1 * (5 * m) by omega)

theorem score_fuzzy_only (query candidateText : String)
    (h1 : lowerStr query ≠ lowerStr candidateText)
    (h2 : strContains (lowerStr candidateText) (lowerStr query) = false)
    (h3 : wordOverlap query candidateText < 1/2) :
    score query candidateText true =
      (if simThreshold ≤ strSim (lowerStr query) (lowerStr candidateText) then
        fuzzyScore (lowerStr query) (lowerStr candidateText) else 0) := by
  simp only [wordOverlap] at h3
  simp only [score, matchScore]
  rw [if_neg h1, if_neg (by simp [h2]), if_neg (ne_of_lt (lt_trans h3 (by norm_num))),
    if_neg (by rw [mkQ_half]; exact not_le.mpr h3)]
  simp

/-- C2: a fuzzy-fallback pair (no exact/substring hit, word overlap below
0.5) scores strictly between 0 and 0.5 once the similarity threshold is
cleared; an exact match (score 1.0) outranks any fuzzy-only pair; and the
typo pair scores exactly 0.0 with fuzzy off. -/
theorem fuzzyFallbackBounds (query candidateText query2 candidateText2 : String) :
    (lowerStr query ≠ lowerStr candidateText ∧
        strContains (lowerStr candidateText) (lowerStr query) = false ∧
        wordOverlap query candidateText < 1/2 ∧
        simThreshold ≤ strSim (lowerStr query) (lowerStr candidateText) →
      0 < score query candidateText true ∧ score query candidateText true < 1/2) ∧
    (lowerStr query2 = lowerStr candidateText2 ∧ lowerStr query ≠ lowerStr candidateText ∧
        strContains (lowerStr candidateText) (lowerStr query) = false ∧
        wordOverlap query candidateText < 1/2 →
      score query candidateText true < score query2 candidateText2 true) ∧
    score "pricng" "pricing" false = 0 := by
  refine ⟨fun ⟨h1, h2, h3, h4⟩ => ?_, fun ⟨heq, h1, h2, h3⟩ => ?_, by decide⟩
  · rw [score_fuzzy_only query candidateText h1 h2 h3, if_pos h4]
    exact fuzzyScore_bounds h1 h4
  · have hex : score query2 candidateText2 true = 1 := by
      simp [score, matchScore, heq]
    rw [hex, score_fuzzy_only query candidateText h1 h2 h3]
    split
    · rename_i h4
      exact lt_trans (fuzzyScore_bounds h1 h4).2 (by norm_num)
    · norm_num

/-- C2 witness: the typo pair scores strictly between 0 and 0.5 in fuzzy
mode, and a fuzzy-only pair never reaches an exact match's score, via
`fuzzyFallbackBounds` at concrete pairs. -/
theorem fuzzyFallbackBoundsWitness :
    (0 < score "pricng" "pricing" true ∧ score "pricng" "pricing" true < 1/2) ∧
    score "tset" "testing" true < score "Test" "test" true :=
  ⟨(fuzzyFallbackBounds "pricng" "pricing" "x" "x").1
      ⟨by decide, by decide,
        by rw [(show wordOverlap "pricng" "pricing" = 0 by decide)]; norm_num,
        by decide⟩,
    (fuzzyFallbackBounds "tset" "testing" "Test" "test").2.1
      ⟨by decide, by decide, by decide,
        by rw [(show wordOverlap "tset" "testing" = 0 by decide)]; norm_num⟩⟩

/-- C3: loading a root with no manifest file fails with the not-found
condition, while a present but unparseable manifest loads as the empty
manifest (directories = []) without any failure reaching the caller. -/
theorem loadFailureModes (fs : List (String × Stored)) :
    (lookupA manifestFilePath fs = none → load fs = .error .notFound) ∧
    (lookupA manifestFilePath fs = some .corrupt →
      load fs = .ok emptyStore ∧ emptyStore.manifest.directories = []) := by
  constructor
  · intro h; simp [load, h]
  · intro h; exact ⟨by simp [load, h], rfl⟩

/-- C3 witness: an empty disk has no manifest and fails not-found; a disk
whose manifest file is corrupt loads as the empty store, via
`loadFailureModes` at those two concrete disks. -/
theorem loadFailureModesWitness :
    load [] = .error .notFound ∧
    load [(manifestFilePath, .corrupt)] = .ok emptyStore :=
  ⟨(loadFailureModes []).1 rfl,
    ((loadFailureModes [(manifestFilePath, .corrupt)]).2 (by decide)).1⟩

theorem lookupA_insertA_self {α : Type} (k : String) (v : α) (l : List (String × α)) :
    lookupA k (insertA k v l) = some v := by
  induction l with
  | nil => simp [insertA, lookupA]
  | cons p rest ih =>
    by_cases h : k = p.1
    · simp [insertA, lookupA, h]
    · simp [insertA, lookupA, h, ih]

theorem insertA_idem {α : Type} (k : String) (v : α) (l : List (String × α)) :
    insertA k v (insertA k v l) = insertA k v l := by
  induction l with
  | nil => simp [insertA]
  | cons p rest ih =>
    by_cases h : k = p.1
    · simp [insertA, h]
    · simp [insertA, h, ih]

theorem mem_addDirs (A D : List String) (d : String) :
    d ∈ addDirs A D ↔ d ∈ D ∨ d ∈ A := by
  induction A generalizing D with
  | nil => simp [addDirs]
  | cons a A ih =>
    show d ∈ addDirs A (if a ∈ D then D else D ++ [a]) ↔ _
    rw [ih]
    by_cases h : a ∈ D
    · simp only [if_pos h, List.mem_cons]
      constructor
      · rintro (hd | hd)
        · exact Or.inl hd
        · exact Or.inr (Or.inr hd)
      · rintro (hd | hd | hd)
        · exact Or.inl hd
        · exact Or.inl (hd ▸ h)
        · exact Or.inr hd
    · simp only [if_neg h, List.mem_append, List.mem_singleton, List.mem_cons]
      tauto

theorem addDirs_eq_self {A D : List String} (h : ∀ d ∈ A, d ∈ D) : addDirs A D = D := by
  induction A with
  | nil => rfl
  | cons a A ih =>
    show addDirs A (if a ∈ D then D else D ++ [a]) = D
    rw [if_pos (h a (List.mem_cons_self a A))]
    exact ih (fun d hd => h d (List.mem_cons_of_mem a hd))

/-- C5: `update_file` is idempotent — a second call with identical
arguments leaves the whole store state, and hence everything `save`
persists, unchanged. -/
theorem updateFileIdempotent (s : MapStore) (relPath hash language : String)
    (lineCount : Nat) (symbols : List Symbol) :
    updateFile (updateFile s relPath hash language lineCount symbols)
        relPath hash language lineCount symbols =
      updateFile s relPath hash language lineCount symbols ∧
    save (updateFile (updateFile s relPath hash language lineCount symbols)
        relPath hash language lineCount symbols) =
      save (updateFile s relPath hash language lineCount symbols) := by
  have main : updateFile (updateFile s relPath hash language lineCount symbols)
      relPath hash language lineCount symbols =
      updateFile s relPath hash language lineCount symbols := by
    simp only [updateFile, lookupA_insertA_self, Option.getD_some]
    congr 1
    · congr 1
      exact addDirs_eq_self (fun d hd => (mem_addDirs _ _ _).mpr (Or.inr hd))
    · rw [insertA_idem, insertA_idem]
  exact ⟨main, by rw [main]⟩

/-- C5 witness: idempotence at one concrete call, via
`updateFileIdempotent`. -/
theorem updateFileIdempotentWitness :
    updateFile (updateFile emptyStore "src/app.py" "h1" "python" 3
        [.mk "f" "function" (1, 2) none none .nil])
        "src/app.py" "h1" "python" 3 [.mk "f" "function" (1, 2) none none .nil] =
      updateFile emptyStore "src/app.py" "h1" "python" 3
        [.mk "f" "function" (1, 2) none none .nil] :=
  (updateFileIdempotent emptyStore "src/app.py" "h1" "python" 3
    [.mk "f" "function" (1, 2) none none .nil]).1

/-- C10: a child symbol the Ruby body extraction obtains with type
`function` appears in `_extract_children`'s result retagged `method` (and
`async_function` as `async_method`) with name, lines, signature, docstring
and children unchanged. -/
theorem rubyChildRetag (extract : TSNode → Option Symbol) (bodyNode child : TSNode)
    (s : Symbol) (hmem : child ∈ bodyNode.children)
    (hmap : rubyNodeMappings.contains child.typ = true)
    (hex : extract child = some s) :
    (s.type = "function" →
      Symbol.mk s.name "method" s.lines s.signature s.docstring s.children ∈
        rubyExtractChildren extract bodyNode) ∧
    (s.type = "async_function" →
      Symbol.mk s.name "async_method" s.lines s.signature s.docstring s.children ∈
        rubyExtractChildren extract bodyNode) := by
  constructor <;> intro hty <;>
    refine List.mem_flatMap.mpr ⟨child, hmem, ?_⟩ <;>
    cases s <;>
    simp_all [Symbol.type, Symbol.name, Symbol.lines, Symbol.signature, Symbol.docstring,
      Symbol.children]

/-- C10 witness: a concrete `method` node whose extraction returns a
`function`-typed symbol lands in the result as a `method` with every other
field kept, via `rubyChildRetag`. -/
theorem rubyChildRetagWitness :
    Symbol.mk "foo" "method" (1, 2) (some "(x)") (some "doc") .nil ∈
      rubyExtractChildren
        (fun _ => some (.mk "foo" "function" (1, 2) (some "(x)") (some "doc") .nil))
        (.mk "body_statement" [.mk "method" []]) :=
  (rubyChildRetag
      (fun _ => some (.mk "foo" "function" (1, 2) (some "(x)") (some "doc") .nil))
      (.mk "body_statement" [.mk "method" []]) (.mk "method" [])
      (.mk "foo" "function" (1, 2) (some "(x)") (some "doc") .nil)
      (List.mem_singleton.mpr rfl) rfl rfl).1 rfl

theorem symbol_roundtrip :
    (∀ s, symFromDict (symToDict s) = some s) ∧
    (∀ cs, symsFromJArr (symsToJArr cs) = some cs) := by
  have hmk : ∀ n t l sg d cs, symsFromJArr (symsToJArr cs) = some cs →
      symFromDict (symToDict (.mk n t l sg d cs)) = some (.mk n t l sg d cs) := by
    intro n t l sg d cs ih
    obtain ⟨a, b⟩ := l
    cases sg <;> cases d <;> cases cs <;>
      simp [symToDict, symFromDict, symFromFields, symDictTail, ih]
  have hnil : symsFromJArr (symsToJArr .nil) = some .nil := rfl
  have hcons : ∀ s rest, symFromDict (symToDict s) = some s →
      symsFromJArr (symsToJArr rest) = some rest →
      symsFromJArr (symsToJArr (.cons s rest)) = some (.cons s rest) := by
    intro s rest hs hrest
    simp [symsToJArr, symsFromJArr, hs, hrest]
  exact ⟨fun s => @Symbol.rec (fun s => symFromDict (symToDict s) = some s)
      (fun cs => symsFromJArr (symsToJArr cs) = some cs) hmk hnil hcons s,
    fun cs => @SymbolList.rec (fun s => symFromDict (symToDict s) = some s)
      (fun cs => symsFromJArr (symsToJArr cs) = some cs) hmk hnil hcons cs⟩

/-- C8: symbol serialization carries a `signature`/`docstring`/`children`
key exactly when the field is present (never a null), deserializing what
was serialized returns the symbol itself — name, type, line pair and
nested children unchanged — and re-serializing therefore omits exactly the
same fields. -/
theorem symbolSerialization (s : Symbol) :
    ("signature" ∈ (jFieldsOf (symToDict s)).keys ↔ s.signature ≠ none) ∧
    ("docstring" ∈ (jFieldsOf (symToDict s)).keys ↔ s.docstring ≠ none) ∧
    ("children" ∈ (jFieldsOf (symToDict s)).keys ↔ s.children ≠ .nil) ∧
    (∀ v ∈ (jFieldsOf (symToDict s)).valuesOf, v ≠ .jnull) ∧
    symFromDict (symToDict s) = some s ∧
    (∀ s2, symFromDict (symToDict s) = some s2 → symToDict s2 = symToDict s) := by
  obtain ⟨n, t, ⟨a, b⟩, sg, d, cs⟩ := s
  refine ⟨?_, ?_, ?_, ?_, symbol_roundtrip.1 _, ?_⟩
  · cases sg <;> cases d <;> cases cs <;>
      simp [symToDict, symDictTail, jFieldsOf, JObj.keys, Symbol.signature]
  · cases sg <;> cases d <;> cases cs <;>
      simp [symToDict, symDictTail, jFieldsOf, JObj.keys, Symbol.docstring]
  · cases sg <;> cases d <;> cases cs <;>
      simp [symToDict, symDictTail, jFieldsOf, JObj.keys, Symbol.children]
  · cases sg <;> cases d <;> cases cs <;>
      simp [symToDict, symDictTail, jFieldsOf, JObj.valuesOf]
  · intro s2 h
    rw [symbol_roundtrip.1 _] at h
    obtain rfl : s2 = _ := (Option.some_inj.mp h).symm
    rfl

/-- C8 witness: a symbol with no optional fields round-trips and its dict
carries no `signature` key, via `symbolSerialization`. -/
theorem symbolSerializationWitness :
    symFromDict (symToDict (.mk "func" "function" (1, 10) none none .nil)) =
      some (.mk "func" "function" (1, 10) none none .nil) ∧
    "signature" ∉
      (jFieldsOf (symToDict (.mk "func" "function" (1, 10) none none .nil))).keys :=
  ⟨(symbolSerialization _).2.2.2.2.1,
    fun h => ((symbolSerialization _).1.mp h) rfl⟩

set_option maxRecDepth 10000

theorem symRecords_nil_of_no_name_hit (q : String) (qw : Finset String) (file : String) :
    (∀ s : Symbol, (∀ sym ∈ flattenSym s, matchScore q qw sym.name false = 0) →
      symRecords q qw false file s = []) ∧
    (∀ cs : SymbolList, (∀ sym ∈ flattenSymList cs, matchScore q qw sym.name false = 0) →
      symListRecords q qw false file cs = []) := by
  have hmk : ∀ n t l sg d cs,
      ((∀ sym ∈ flattenSymList cs, matchScore q qw sym.name false = 0) →
        symListRecords q qw false file cs = []) →
      (∀ sym ∈ flattenSym (.mk n t l sg d cs), matchScore q qw sym.name false = 0) →
      symRecords q qw false file (.mk n t l sg d cs) = [] := by
    intro n t l sg d cs ih h
    have hself : matchScore q qw n false = 0 := by
      have := h (.mk n t l sg d cs) (by rw [flattenSym]; exact List.mem_cons_self _ _)
      simpa [Symbol.name] using this
    have htail := ih (fun sym hs => h sym (by rw [flattenSym]; exact List.mem_cons_of_mem _ hs))
    simp [symRecords, hself, htail]
  have hnil : (∀ sym ∈ flattenSymList .nil, matchScore q qw sym.name false = 0) →
      symListRecords q qw false file .nil = [] := fun _ => rfl
  have hcons : ∀ s rest,
      ((∀ sym ∈ flattenSym s, matchScore q qw sym.name false = 0) →
        symRecords q qw false file s = []) →
      ((∀ sym ∈ flattenSymList rest, matchScore q qw sym.name false = 0) →
        symListRecords q qw false file rest = []) →
      (∀ sym ∈ flattenSymList (.cons s rest), matchScore q qw sym.name false = 0) →
      symListRecords q qw false file (.cons s rest) = [] := by
    intro s rest ihs ihr h
    rw [symListRecords]
    rw [ihs fun sym hs => h sym (by rw [flattenSymList]; exact List.mem_append_left _ hs),
      ihr fun sym hs => h sym (by rw [flattenSymList]; exact List.mem_append_right _ hs)]
    rfl
  exact ⟨fun s => @Symbol.rec
      (fun s => (∀ sym ∈ flattenSym s, matchScore q qw sym.name false = 0) →
        symRecords q qw false file s = [])
      (fun cs => (∀ sym ∈ flattenSymList cs, matchScore q qw sym.name false = 0) →
        symListRecords q qw false file cs = []) hmk hnil hcons s,
    fun cs => @SymbolList.rec
      (fun s => (∀ sym ∈ flattenSym s, matchScore q qw sym.name false = 0) →
        symRecords q qw false file s = [])
      (fun cs => (∀ sym ∈ flattenSymList cs, matchScore q qw sym.name false = 0) →
        symListRecords q qw false file cs = []) hmk hnil hcons cs⟩

theorem insertByScore_perm (r : MatchRecord) :
    ∀ l : List MatchRecord, (insertByScore r l).Perm (r :: l) := by
  intro l
  induction l with
  | nil => rfl
  | cons x xs ih =>
    rw [insertByScore]
    split
    · rfl
    · exact (ih.cons x).trans (List.Perm.swap r x xs)

theorem sortByScore_perm : ∀ l : List MatchRecord, (sortByScore l).Perm l := by
  intro l
  induction l with
  | nil => rfl
  | cons r rest ih =>
    rw [sortByScore]
    exact (insertByScore_perm r (sortByScore rest)).trans (ih.cons r)

theorem mem_findSymbol_none (s : MapStore) (query : String) (fuzzy : Bool)
    (r : MatchRecord) :
    r ∈ findSymbol s query fuzzy none ↔
      r ∈ s.dirmaps.flatMap (fun p =>
        p.2.files.flatMap (fun f =>
          f.2.symbols.flatMap
            (symRecords query (wordSet (lowerStr query)) fuzzy (joinRel p.1 f.1)) ++
            (if fuzzy then
              (if 0 < matchScore query (wordSet (lowerStr query)) f.1 fuzzy then
                [⟨f.1, "file", joinRel p.1 f.1, (1, f.2.lines),
                  matchScore query (wordSet (lowerStr query)) f.1 fuzzy⟩]
              else [])
            else []))) :=
  (sortByScore_perm _).mem_iff

theorem symRecords_mem_of_doc_hit (q : String) (qw : Finset String) (file : String) :
    (∀ s : Symbol, ∀ sym ∈ flattenSym s, ∀ ds, sym.docstring = some ds →
      0 < matchScore q qw ds true →
      ∃ r ∈ symRecords q qw true file s, r.name = sym.name ∧ r.type = sym.type ∧
        r.file = file ∧ r.lines = sym.lines ∧ 0 < r.score) ∧
    (∀ cs : SymbolList, ∀ sym ∈ flattenSymList cs, ∀ ds, sym.docstring = some ds →
      0 < matchScore q qw ds true →
      ∃ r ∈ symListRecords q qw true file cs, r.name = sym.name ∧ r.type = sym.type ∧
        r.file = file ∧ r.lines = sym.lines ∧ 0 < r.score) := by
  have hmk : ∀ n t l sg d cs,
      (∀ sym ∈ flattenSymList cs, ∀ ds, sym.docstring = some ds →
        0 < matchScore q qw ds true →
        ∃ r ∈ symListRecords q qw true file cs, r.name = sym.name ∧ r.type = sym.type ∧
          r.file = file ∧ r.lines = sym.lines ∧ 0 < r.score) →
      ∀ sym ∈ flattenSym (.mk n t l sg d cs), ∀ ds, sym.docstring = some ds →
        0 < matchScore q qw ds true →
        ∃ r ∈ symRecords q qw true file (.mk n t l sg d cs), r.name = sym.name ∧
          r.type = sym.type ∧ r.file = file ∧ r.lines = sym.lines ∧ 0 < r.score := by
    intro n t l sg d cs ih sym hsym ds hds hsc
    rw [flattenSym] at hsym
    rcases List.mem_cons.mp hsym with rfl | hmem
    · have hd : d = some ds := hds
      subst hd
      have hpos : 0 < max (matchScore q qw n true) (matchScore q qw ds true) :=
        lt_max_iff.mpr (Or.inr hsc)
      refine ⟨⟨n, t, file, l, max (matchScore q qw n true) (matchScore q qw ds true)⟩,
        ?_, rfl, rfl, rfl, rfl, hpos⟩
      refine List.mem_append_left _ ?_
      show _ ∈ if 0 < max (matchScore q qw n true) (matchScore q qw ds true) then
        [(⟨n, t, file, l, max (matchScore q qw n true) (matchScore q qw ds true)⟩ :
          MatchRecord)] else []
      rw [if_pos hpos]
      exact List.mem_singleton.mpr rfl
    · obtain ⟨r, hr, hfields⟩ := ih sym hmem ds hds hsc
      exact ⟨r, List.mem_append_right _ hr, hfields⟩
  have hnil : ∀ sym ∈ flattenSymList .nil, ∀ ds, sym.docstring = some ds →
      0 < matchScore q qw ds true →
      ∃ r ∈ symListRecords q qw true file .nil, r.name = sym.name ∧ r.type = sym.type ∧
        r.file = file ∧ r.lines = sym.lines ∧ 0 < r.score := by
    intro sym hsym
    simp [flattenSymList] at hsym
  have hcons : ∀ s rest,
      (∀ sym ∈ flattenSym s, ∀ ds, sym.docstring = some ds →
        0 < matchScore q qw ds true →
        ∃ r ∈ symRecords q qw true file s, r.name = sym.name ∧ r.type = sym.type ∧
          r.file = file ∧ r.lines = sym.lines ∧ 0 < r.score) →
      (∀ sym ∈ flattenSymList rest, ∀ ds, sym.docstring = some ds →
        0 < matchScore q qw ds true →
        ∃ r ∈ symListRecords q qw true file rest, r.name = sym.name ∧ r.type = sym.type ∧
          r.file = file ∧ r.lines = sym.lines ∧ 0 < r.score) →
      ∀ sym ∈ flattenSymList (.cons s rest), ∀ ds, sym.docstring = some ds →
        0 < matchScore q qw ds true →
        ∃ r ∈ symListRecords q qw true file (.cons s rest), r.name = sym.name ∧
          r.type = sym.type ∧ r.file = file ∧ r.lines = sym.lines ∧ 0 < r.score := by
    intro s rest ihs ihr sym hsym ds hds hsc
    rw [flattenSymList] at hsym
    rcases List.mem_append.mp hsym with hmem | hmem
    · obtain ⟨r, hr, hfields⟩ := ihs sym hmem ds hds hsc
      exact ⟨r, List.mem_append_left _ hr, hfields⟩
    · obtain ⟨r, hr, hfields⟩ := ihr sym hmem ds hds hsc
      exact ⟨r, List.mem_append_right _ hr, hfields⟩
  exact ⟨fun s => @Symbol.rec
      (fun s => ∀ sym ∈ flattenSym s, ∀ ds, sym.docstring = some ds →
        0 < matchScore q qw ds true →
        ∃ r ∈ symRecords q qw true file s, r.name = sym.name ∧ r.type = sym.type ∧
          r.file = file ∧ r.lines = sym.lines ∧ 0 < r.score)
      (fun cs => ∀ sym ∈ flattenSymList cs, ∀ ds, sym.docstring = some ds →
        0 < matchScore q qw ds true →
        ∃ r ∈ symListRecords q qw true file cs, r.name = sym.name ∧ r.type = sym.type ∧
          r.file = file ∧ r.lines = sym.lines ∧ 0 < r.score) hmk hnil hcons s,
    fun cs => @SymbolList.rec
      (fun s => ∀ sym ∈ flattenSym s, ∀ ds, sym.docstring = some ds →
        0 < matchScore q qw ds true →
        ∃ r ∈ symRecords q qw true file s, r.name = sym.name ∧ r.type = sym.type ∧
          r.file = file ∧ r.lines = sym.lines ∧ 0 < r.score)
      (fun cs => ∀ sym ∈ flattenSymList cs, ∀ ds, sym.docstring = some ds →
        0 < matchScore q qw ds true →
        ∃ r ∈ symListRecords q qw true file cs, r.name = sym.name ∧ r.type = sym.type ∧
          r.file = file ∧ r.lines = sym.lines ∧ 0 < r.score) hmk hnil hcons cs⟩

/-- C6: filenames and docstrings are candidate sources only in fuzzy mode —
for every store, with fuzzy off a query matching no symbol name returns
nothing, while with fuzzy on every tracked file whose basename scores
positively contributes its synthesized `file` record and every symbol whose
docstring scores positively contributes a record for the owning symbol; on
the demo store the filename-only and docstring-only queries return exactly
those records. -/
theorem fuzzyOnlyCandidates :
    (∀ (s : MapStore) (query : String) (symbolType : Option String),
        (∀ p ∈ s.dirmaps, ∀ f ∈ p.2.files, ∀ root ∈ f.2.symbols, ∀ sym ∈ flattenSym root,
          matchScore query (wordSet (lowerStr query)) sym.name false = 0) →
        findSymbol s query false symbolType = []) ∧
    (∀ (s : MapStore) (query : String), ∀ p ∈ s.dirmaps, ∀ f ∈ p.2.files,
        0 < matchScore query (wordSet (lowerStr query)) f.1 true →
        ∃ r ∈ findSymbol s query true none, r.name = f.1 ∧ r.type = "file" ∧
          r.file = joinRel p.1 f.1 ∧ 0 < r.score) ∧
    (∀ (s : MapStore) (query : String), ∀ p ∈ s.dirmaps, ∀ f ∈ p.2.files,
        ∀ root ∈ f.2.symbols, ∀ sym ∈ flattenSym root, ∀ ds, sym.docstring = some ds →
        0 < matchScore query (wordSet (lowerStr query)) ds true →
        ∃ r ∈ findSymbol s query true none, r.name = sym.name ∧ r.type = sym.type ∧
          r.file = joinRel p.1 f.1 ∧ r.lines = sym.lines ∧ 0 < r.score) ∧
    findSymbol demoStore "linkedin" false none = [] ∧
    (findSymbol demoStore "linkedin" true none).any
      (fun r => r.type == "file" && strContains (lowerStr r.name) "linkedin") = true ∧
    findSymbol demoStore "monetization" false none = [] ∧
    (findSymbol demoStore "monetization" true none).map MatchRecord.name =
      ["Pricing Restructure"] := by
  refine ⟨?_, ?_, ?_, ?_, ?_, ?_, ?_⟩
  · intro s query symbolType h
    have hrecs : s.dirmaps.flatMap (fun p =>
        p.2.files.flatMap (fun f =>
          f.2.symbols.flatMap
            (symRecords query (wordSet (lowerStr query)) false (joinRel p.1 f.1)) ++
            (if false = true then
              let sc := matchScore query (wordSet (lowerStr query)) f.1 false
              if 0 < sc then [⟨f.1, "file", joinRel p.1 f.1, (1, f.2.lines), sc⟩] else []
            else []))) = [] := by
      rw [List.flatMap_eq_nil_iff]
      intro p hp
      rw [List.flatMap_eq_nil_iff]
      intro f hf
      simp only [if_neg (by simp : ¬(false = true)), List.append_nil]
      rw [List.flatMap_eq_nil_iff]
      intro root hroot
      exact (symRecords_nil_of_no_name_hit query (wordSet (lowerStr query))
        (joinRel p.1 f.1)).1 root (h p hp f hf root hroot)
    simp only [findSymbol]
    rw [hrecs]
    cases symbolType <;> rfl
  · intro s query p hp f hf hsc
    refine ⟨⟨f.1, "file", joinRel p.1 f.1, (1, f.2.lines),
        matchScore query (wordSet (lowerStr query)) f.1 true⟩, ?_, rfl, rfl, rfl, hsc⟩
    rw [mem_findSymbol_none]
    refine List.mem_flatMap.mpr ⟨p, hp, ?_⟩
    refine List.mem_flatMap.mpr ⟨f, hf, ?_⟩
    refine List.mem_append_right _ ?_
    rw [if_pos rfl, if_pos hsc]
    exact List.mem_singleton.mpr rfl
  · intro s query p hp f hf root hroot sym hsym ds hds hsc
    obtain ⟨r, hr, h1, h2, hfile, h3, h4⟩ := (symRecords_mem_of_doc_hit query
      (wordSet (lowerStr query)) (joinRel p.1 f.1)).1 root sym hsym ds hds hsc
    refine ⟨r, ?_, h1, h2, hfile, h3, h4⟩
    rw [mem_findSymbol_none]
    refine List.mem_flatMap.mpr ⟨p, hp, ?_⟩
    refine List.mem_flatMap.mpr ⟨f, hf, ?_⟩
    exact List.mem_append_left _ (List.mem_flatMap.mpr ⟨root, hroot, hr⟩)
  · decide
  · decide
  · decide
  · decide

/-- C6 witness: concrete runs of `fuzzyOnlyCandidates` on the demo store —
the filename-only query returns nothing with fuzzy off, and with fuzzy on
the synthesized `file` record for the post filename and a record for the
docstring-owning section are returned; every hypothesis is checked by
evaluation. -/
theorem fuzzyOnlyCandidatesWitness :
    findSymbol demoStore "linkedin" false (some "file") = [] ∧
    (∃ r ∈ findSymbol demoStore "linkedin" true none,
      r.name = "linkedin-openclaw-post.md" ∧ r.type = "file" ∧
      r.file = "linkedin-openclaw-post.md" ∧ 0 < r.score) ∧
    (∃ r ∈ findSymbol demoStore "monetization" true none,
      r.name = "Pricing Restructure" ∧ r.type = "section" ∧
      r.file = "docs/pricing-strategy.md" ∧ r.lines = (1, 50) ∧ 0 < r.score) :=
  ⟨fuzzyOnlyCandidates.1 demoStore "linkedin" (some "file") (by decide),
    fuzzyOnlyCandidates.2.1 demoStore "linkedin"
      ("", ⟨storeVersion, "",
        [("linkedin-openclaw-post.md", ⟨"hash2", indexStamp, "markdown", 40,
          [.mk "Post body" "section" (1, 30) none none .nil,
            .mk "Suggested subreddits" "section" (31, 40) none none .nil]⟩)]⟩)
      (by decide)
      ("linkedin-openclaw-post.md", ⟨"hash2", indexStamp, "markdown", 40,
        [.mk "Post body" "section" (1, 30) none none .nil,
          .mk "Suggested subreddits" "section" (31, 40) none none .nil]⟩)
      (by decide) (by decide),
    fuzzyOnlyCandidates.2.2.1 demoStore "monetization"
      ("docs", ⟨storeVersion, "docs",
        [("pricing-strategy.md", ⟨"hash1", indexStamp, "markdown", 100,
          [.mk "Pricing Restructure" "section" (1, 50) none
              (some "How to restructure the monetization model") .nil,
            .mk "Revenue Projections" "section" (51, 100) none none .nil]⟩)]⟩)
      (by decide)
      ("pricing-strategy.md", ⟨"hash1", indexStamp, "markdown", 100,
        [.mk "Pricing Restructure" "section" (1, 50) none
            (some "How to restructure the monetization model") .nil,
          .mk "Revenue Projections" "section" (51, 100) none none .nil]⟩)
      (by decide)
      (.mk "Pricing Restructure" "section" (1, 50) none
        (some "How to restructure the monetization model") .nil)
      (by decide)
      (.mk "Pricing Restructure" "section" (1, 50) none
        (some "How to restructure the monetization model") .nil)
      (by decide) "How to restructure the monetization model" rfl (by decide)⟩

theorem splitBy_ne_nil (p : Char → Bool) (cs : List Char) : splitBy p cs ≠ [] := by
  cases cs with
  | nil => simp [splitBy]
  | cons c rest =>
    rw [splitBy]
    split
    · simp
    · split <;> simp

theorem mem_splitBy_no_sep (p : Char → Bool) (cs : List Char) :
    ∀ l ∈ splitBy p cs, ∀ c ∈ l, p c = false := by
  induction cs with
  | nil => intro l hl c hc; simp [splitBy] at hl; subst hl; simp at hc
  | cons a rest ih =>
    intro l hl c hc
    rw [splitBy] at hl
    by_cases hp : p a
    · rw [if_pos hp] at hl
      rcases List.mem_cons.mp hl with h | h
      · subst h; simp at hc
      · exact ih l h c hc
    · rw [if_neg hp] at hl
      rcases hsplit : splitBy p rest with _ | ⟨w, ws⟩
      · exact absurd hsplit (splitBy_ne_nil p rest)
      · rw [hsplit] at hl
        rcases List.mem_cons.mp hl with h | h
        · subst h
          rcases List.mem_cons.mp hc with h | h
          · subst h; exact Bool.eq_false_iff.mpr hp
          · exact ih w (hsplit ▸ List.mem_cons_self w ws) c h
        · exact ih l (hsplit ▸ List.mem_cons_of_mem w h) c hc

theorem splitBy_no_sep_id (p : Char → Bool) (w : List Char) (h : ∀ c ∈ w, p c = false) :
    splitBy p w = [w] := by
  induction w with
  | nil => rfl
  | cons c w ih =>
    rw [splitBy, if_neg (by simp [h c (List.mem_cons_self c w)]),
      ih (fun x hx => h x (List.mem_cons_of_mem c hx))]

theorem splitBy_append_sep (p : Char → Bool) (w rest : List Char) (sep : Char)
    (hsep : p sep = true) (h : ∀ c ∈ w, p c = false) :
    splitBy p (w ++ sep :: rest) = w :: splitBy p rest := by
  induction w with
  | nil => simp [splitBy, hsep]
  | cons c w ih =>
    rw [List.cons_append, splitBy, if_neg (by simp [h c (List.mem_cons_self c w)]),
      ih (fun x hx => h x (List.mem_cons_of_mem c hx))]

theorem splitBy_joinWith (p : Char → Bool) (sep : Char) (hsep : p sep = true) :
    ∀ LS : List (List Char), LS ≠ [] → (∀ l ∈ LS, ∀ c ∈ l, p c = false) →
      splitBy p (joinWith sep LS) = LS := by
  intro LS
  induction LS with
  | nil => intro h; exact absurd rfl h
  | cons w LS ih =>
    intro _ hno
    cases LS with
    | nil =>
      rw [joinWith]
      exact splitBy_no_sep_id p w (hno w (List.mem_cons_self _ _))
    | cons w2 LS2 =>
      have hj : joinWith sep (w :: w2 :: LS2) = w ++ sep :: joinWith sep (w2 :: LS2) := rfl
      rw [hj, splitBy_append_sep p w _ sep hsep (hno w (List.mem_cons_self _ _)),
        ih (List.cons_ne_nil _ _) (fun l hl => hno l (List.mem_cons_of_mem w hl))]

theorem stripLinesAux_acc (ls : List (List Char)) :
    ∀ acc pending, stripLinesAux acc pending ls = acc ++ stripLinesAux [] pending ls := by
  induction ls with
  | nil => intro acc pending; simp [stripLinesAux]
  | cons l rest ih =>
    intro acc pending
    rw [stripLinesAux, stripLinesAux]
    by_cases hd : isDirectiveLine l
    · rw [if_pos hd, if_pos hd, ih (acc ++ [[]]), ih ([] ++ [[]])]
      simp
    · rw [if_neg hd, if_neg hd]
      by_cases hb : isBlankLine l
      · rw [if_pos hb, if_pos hb, ih acc, ih []]
      · rw [if_neg hb, if_neg hb, ih (acc ++ pending ++ [l]), ih ([] ++ pending ++ [l])]
        simp

theorem blank_not_directive {l : List Char} (h : isBlankLine l = true) :
    isDirectiveLine l = false := by
  have : l.dropWhile pyWS = [] := by
    rw [List.dropWhile_eq_nil_iff]
    intro x hx
    exact (List.all_eq_true.mp h) x hx
  rw [isDirectiveLine, this]
  rfl

theorem empty_not_directive : isDirectiveLine [] = false := rfl

theorem mem_stripLinesAux (ls : List (List Char)) :
    ∀ acc pending, ∀ l ∈ stripLinesAux acc pending ls,
      l ∈ acc ∨ l ∈ pending ∨ (l ∈ ls ∧ isDirectiveLine l = false) ∨ l = [] := by
  induction ls with
  | nil =>
    intro acc pending l hl
    rw [stripLinesAux] at hl
    rcases List.mem_append.mp hl with h | h
    · exact Or.inl h
    · exact Or.inr (Or.inl h)
  | cons x rest ih =>
    intro acc pending l hl
    rw [stripLinesAux] at hl
    by_cases hd : isDirectiveLine x
    · rw [if_pos hd] at hl
      rcases ih (acc ++ [[]]) [] l hl with h | h | h | h
      · rcases List.mem_append.mp h with h | h
        · exact Or.inl h
        · simp at h; exact Or.inr (Or.inr (Or.inr h))
      · simp at h
      · exact Or.inr (Or.inr (Or.inl ⟨List.mem_cons_of_mem x h.1, h.2⟩))
      · exact Or.inr (Or.inr (Or.inr h))
    · rw [if_neg hd] at hl
      by_cases hb : isBlankLine x
      · rw [if_pos hb] at hl
        rcases ih acc (pending ++ [x]) l hl with h | h | h | h
        · exact Or.inl h
        · rcases List.mem_append.mp h with h | h
          · exact Or.inr (Or.inl h)
          · simp at h; subst h
            exact Or.inr (Or.inr (Or.inl
              ⟨List.mem_cons_self _ _, blank_not_directive hb⟩))
        · exact Or.inr (Or.inr (Or.inl ⟨List.mem_cons_of_mem x h.1, h.2⟩))
        · exact Or.inr (Or.inr (Or.inr h))
      · rw [if_neg hb] at hl
        rcases ih (acc ++ pending ++ [x]) [] l hl with h | h | h | h
        · rcases List.mem_append.mp h with h | h
          · rcases List.mem_append.mp h with h | h
            · exact Or.inl h
            · exact Or.inr (Or.inl h)
          · simp at h; subst h
            exact Or.inr (Or.inr (Or.inl
              ⟨List.mem_cons_self _ _, Bool.eq_false_iff.mpr hd⟩))
        · simp at h
        · exact Or.inr (Or.inr (Or.inl ⟨List.mem_cons_of_mem x h.1, h.2⟩))
        · exact Or.inr (Or.inr (Or.inr h))

theorem stripLinesAux_no_directive (ls : List (List Char))
    (h : ∀ l ∈ ls, isDirectiveLine l = false) :
    ∀ acc pending, stripLinesAux acc pending ls = acc ++ pending ++ ls := by
  induction ls with
  | nil => intro acc pending; simp [stripLinesAux]
  | cons x rest ih =>
    intro acc pending
    rw [stripLinesAux,
      if_neg (by rw [h x (List.mem_cons_self _ _)]; exact Bool.false_ne_true)]
    by_cases hb : isBlankLine x
    · rw [if_pos hb, ih (fun l hl => h l (List.mem_cons_of_mem x hl)) acc (pending ++ [x])]
      simp
    · rw [if_neg hb, ih (fun l hl => h l (List.mem_cons_of_mem x hl)) (acc ++ pending ++ [x]) []]
      simp

theorem stripLines_idem (ls : List (List Char)) :
    stripLinesAux [] [] (stripLinesAux [] [] ls) = stripLinesAux [] [] ls := by
  have hnd : ∀ l ∈ stripLinesAux [] [] ls, isDirectiveLine l = false := by
    intro l hl
    rcases mem_stripLinesAux ls [] [] l hl with h | h | h | h
    · simp at h
    · simp at h
    · exact h.2
    · subst h; rfl
  rw [stripLinesAux_no_directive _ hnd [] []]
  simp

theorem stripLinesAux_eq_nil (ls : List (List Char)) :
    ∀ acc pending, stripLinesAux acc pending ls = [] →
      acc = [] ∧ pending = [] ∧ ls = [] := by
  induction ls with
  | nil =>
    intro acc pending h
    rw [stripLinesAux] at h
    rcases List.append_eq_nil.mp h with ⟨h1, h2⟩
    exact ⟨h1, h2, rfl⟩
  | cons x rest ih =>
    intro acc pending h
    rw [stripLinesAux] at h
    by_cases hd : isDirectiveLine x
    · rw [if_pos hd] at h
      rcases ih _ _ h with ⟨h1, _, _⟩
      exact absurd h1 (by simp)
    · rw [if_neg hd] at h
      by_cases hb : isBlankLine x
      · rw [if_pos hb] at h
        rcases ih _ _ h with ⟨_, h2, _⟩
        exact absurd h2 (by simp)
      · rw [if_neg hb] at h
        rcases ih _ _ h with ⟨h1, _, _⟩
        exact absurd h1 (by simp)

theorem stripDirectives_idem (source : String) :
    stripDirectives (stripDirectives source) = stripDirectives source := by
  rw [stripDirectives, stripDirectives]
  congr 1
  have hdata : (String.mk (joinWith '\n'
      (stripLinesAux [] [] (splitBy (· == '\n') source.data)))).data =
      joinWith '\n' (stripLinesAux [] [] (splitBy (· == '\n') source.data)) := rfl
  rw [hdata]
  have hne : stripLinesAux [] [] (splitBy (· == '\n') source.data) ≠ [] := by
    intro h
    exact splitBy_ne_nil _ _ (stripLinesAux_eq_nil _ [] [] h).2.2
  have hnosep : ∀ l ∈ stripLinesAux [] [] (splitBy (· == '\n') source.data),
      ∀ c ∈ l, (c == '\n') = false := by
    intro l hl c hc
    rcases mem_stripLinesAux _ [] [] l hl with h | h | h | h
    · simp at h
    · simp at h
    · exact mem_splitBy_no_sep _ _ l h.1 c hc
    · subst h; simp at hc
  rw [splitBy_joinWith (· == '\n') '\n' rfl _ hne hnosep, stripLines_idem]

/-- C9 (amended): `SwiftParser.parse` is invariant under the code's own
directive substitution — which blanks each directive line but also absorbs
an immediately preceding run of whitespace-only lines and requires the
keyword to end at a word boundary — and that substitution is idempotent,
so parsing an already-cleaned source yields identical results. -/
theorem swiftParseStripStable (baseParse : String → List Symbol) (source : String) :
    swiftParse baseParse source = swiftParse baseParse (stripDirectives source) ∧
    stripDirectives (stripDirectives source) = stripDirectives source := by
  refine ⟨?_, stripDirectives_idem source⟩
  rw [swiftParse, swiftParse, stripDirectives_idem]

/-- C9 counterexample: on `"a\n\n#if x\nb"` the claim's per-line blanking
keeps the blank line before the directive, but the code's regex deletes it
(its `^\s*` absorbs the preceding newline), so a base parser that reports
the parsed text's line count returns different symbols. -/
theorem swiftParseBlankingCounterexample :
    swiftParse lineSpanParse "a\n\n#if x\nb" ≠
      swiftParse lineSpanParse (blankDirectiveLines "a\n\n#if x\nb") := by decide


/-- C9 witness: the amended invariance at a concrete source and base
parser, via `swiftParseStripStable`. -/
theorem swiftParseStripStableWitness :
    swiftParse lineSpanParse "a\n\n#if x\nb" =
      swiftParse lineSpanParse (stripDirectives "a\n\n#if x\nb") :=
  (swiftParseStripStable lineSpanParse "a\n\n#if x\nb").1

theorem insertA_ne_nil {α : Type} (k : String) (v : α) (l : List (String × α)) :
    insertA k v l ≠ [] := by
  cases l with
  | nil => simp [insertA]
  | cons p rest =>
    rw [insertA]
    split <;> simp

theorem mem_insertA {α : Type} {p : String × α} {k : String} {v : α}
    {l : List (String × α)} (h : p ∈ insertA k v l) : p = (k, v) ∨ p ∈ l := by
  induction l with
  | nil => simp [insertA] at h; exact Or.inl h
  | cons q rest ih =>
    rw [insertA] at h
    split at h
    · rcases List.mem_cons.mp h with h | h
      · exact Or.inl h
      · exact Or.inr (List.mem_cons_of_mem q h)
    · rcases List.mem_cons.mp h with h | h
      · exact Or.inr (h ▸ List.mem_cons_self q rest)
      · rcases ih h with h | h
        · exact Or.inl h
        · exact Or.inr (List.mem_cons_of_mem q h)

theorem mem_insertA_self {α : Type} (k : String) (v : α) (l : List (String × α)) :
    (k, v) ∈ insertA k v l := by
  induction l with
  | nil => simp [insertA]
  | cons q rest ih =>
    rw [insertA]
    split
    · exact List.mem_cons_self _ _
    · exact List.mem_cons_of_mem q ih

theorem mem_insertA_of_ne {α : Type} {p : String × α} {l : List (String × α)}
    (hp : p ∈ l) (k : String) (v : α) (hne : p.1 ≠ k) : p ∈ insertA k v l := by
  induction l with
  | nil => simp at hp
  | cons q rest ih =>
    rw [insertA]
    rcases List.mem_cons.mp hp with h | h
    · subst h
      rw [if_neg (fun hk => hne (by rw [hk]))]
      exact List.mem_cons_self _ _
    · split
      · rename_i hk
        subst hk
        exact List.mem_cons_of_mem _ h
      · exact List.mem_cons_of_mem q (ih h)

theorem mem_eraseA_sub {α : Type} {p : String × α} {k : String} {l : List (String × α)}
    (h : p ∈ eraseA k l) : p ∈ l := by
  induction l with
  | nil => simp [eraseA] at h
  | cons q rest ih =>
    rw [eraseA] at h
    split at h
    · exact List.mem_cons_of_mem q h
    · rcases List.mem_cons.mp h with h | h
      · exact h ▸ List.mem_cons_self q rest
      · exact List.mem_cons_of_mem q (ih h)

theorem lookupA_some_mem {α : Type} {k : String} {v : α} {l : List (String × α)}
    (h : lookupA k l = some v) : (k, v) ∈ l := by
  induction l with
  | nil => simp [lookupA] at h
  | cons q rest ih =>
    rw [lookupA] at h
    split at h
    · rename_i hk
      obtain rfl : q.2 = v := Option.some_inj.mp h
      subst hk
      exact List.mem_cons_self _ _
    · exact List.mem_cons_of_mem q (ih h)

theorem hasFileBelow_iff (dms : List (String × DirectoryMap)) (d : String) :
    hasFileBelow dms d = true ↔
      ∃ p ∈ dms, d ∈ ancestorDirs p.1 ∧ p.2.files ≠ [] := by
  simp [hasFileBelow, List.any_eq_true, List.isEmpty_iff]

theorem mem_ancestorDirs_ne_root {d dir : String} (h : d ∈ ancestorDirs dir) : d ≠ "" := by
  rw [ancestorDirs] at h
  split at h
  · simp at h
  · exact of_decide_eq_true (List.mem_filter.mp h).2

theorem hasFileBelow_insertA {M : List (String × DirectoryMap)} {k : String}
    {dm : DirectoryMap} (hdm : dm.files ≠ []) (d : String) :
    hasFileBelow (insertA k dm M) d = true ↔
      (hasFileBelow M d = true ∨ d ∈ ancestorDirs k) := by
  rw [hasFileBelow_iff, hasFileBelow_iff]
  constructor
  · rintro ⟨p, hp, hanc, hne⟩
    rcases mem_insertA hp with rfl | hp2
    · exact Or.inr hanc
    · exact Or.inl ⟨p, hp2, hanc, hne⟩
  · rintro (⟨p, hp, hanc, hne⟩ | hanc)
    · by_cases hk : p.1 = k
      · exact ⟨(k, dm), mem_insertA_self k dm M, hk ▸ hanc, hdm⟩
      · exact ⟨p, mem_insertA_of_ne hp k dm hk, hanc, hne⟩
    · exact ⟨(k, dm), mem_insertA_self k dm M, hanc, hdm⟩

theorem storeInv_updateFile (s : MapStore) (relPath hash language : String)
    (lineCount : Nat) (symbols : List Symbol) (h : storeInv s) :
    storeInv (updateFile s relPath hash language lineCount symbols) := by
  obtain ⟨h1, h2⟩ := h
  constructor
  · intro p hp
    simp only [updateFile] at hp
    rcases mem_insertA hp with rfl | hp2
    · exact insertA_ne_nil _ _ _
    · exact h1 p hp2
  · intro d
    simp only [updateFile]
    rw [mem_addDirs, h2, hasFileBelow_insertA (insertA_ne_nil _ _ _) d]
    constructor
    · rintro (⟨hne, hfb⟩ | hanc)
      · exact ⟨hne, Or.inl hfb⟩
      · exact ⟨mem_ancestorDirs_ne_root hanc, Or.inr hanc⟩
    · rintro ⟨hne, hfb | hanc⟩
      · exact Or.inl ⟨hne, hfb⟩
      · exact Or.inr hanc

theorem storeInv_removeFile (s : MapStore) (relPath : String) (h : storeInv s) :
    storeInv (removeFile s relPath).2 := by
  obtain ⟨h1, h2⟩ := h
  simp only [removeFile]
  split
  · exact ⟨h1, h2⟩
  · rename_i dm hdm
    split
    · exact ⟨h1, h2⟩
    · rename_i e hbase
      have hdmne : dm.files ≠ [] := by
        intro hnil
        rw [hnil] at hbase
        simp [lookupA] at hbase
      split
      · rename_i hemp
        refine ⟨?_, ?_⟩
        · intro p hp
          exact h1 p (mem_eraseA_sub hp)
        · intro d
          simp only [List.mem_filter]
          rw [h2]
          constructor
          · rintro ⟨⟨hne, _⟩, hfb⟩
            exact ⟨hne, hfb⟩
          · rintro ⟨hne, hfb⟩
            refine ⟨⟨hne, ?_⟩, hfb⟩
            rw [hasFileBelow_iff] at hfb ⊢
            obtain ⟨p, hp, hanc, hpne⟩ := hfb
            exact ⟨p, mem_eraseA_sub hp, hanc, hpne⟩
      · rename_i hemp
        have hnew : eraseA (baseName relPath) dm.files ≠ [] := by
          intro hnil
          exact hemp (by rw [List.isEmpty_iff]; exact hnil)
        refine ⟨?_, ?_⟩
        · intro p hp
          rcases mem_insertA hp with rfl | hp2
          · exact hnew
          · exact h1 p hp2
        · intro d
          rw [h2, hasFileBelow_insertA hnew d]
          constructor
          · rintro ⟨hne, hfb⟩
            exact ⟨hne, Or.inl hfb⟩
          · rintro ⟨hne, hfb | hanc⟩
            · exact ⟨hne, hfb⟩
            · refine ⟨hne, ?_⟩
              rw [hasFileBelow_iff]
              exact ⟨(parentDir relPath, dm), lookupA_some_mem hdm, hanc, hdmne⟩

theorem storeInv_applyOp (s : MapStore) (op : StoreOp) (h : storeInv s) :
    storeInv (applyOp s op) := by
  cases op with
  | update relPath hash language lineCount symbols =>
    exact storeInv_updateFile s relPath hash language lineCount symbols h
  | remove relPath => exact storeInv_removeFile s relPath h
  | stats => exact ⟨h.1, h.2⟩
  | meta root config => exact ⟨h.1, h.2⟩

theorem storeInv_applyOps (ops : List StoreOp) : storeInv (applyOps ops) := by
  have hempty : storeInv emptyStore := by
    constructor
    · intro p hp; simp [emptyStore] at hp
    · intro d; simp [emptyStore, hasFileBelow]
  rw [applyOps]
  have key : ∀ t : MapStore, storeInv t → storeInv (ops.foldl applyOp t) := by
    induction ops with
    | nil => exact fun t ht => ht
    | cons op ops ih => exact fun t ht => ih _ (storeInv_applyOp t op ht)
  exact key emptyStore hempty

/-- C4 counterexample: after indexing the single nested file `a/b/f.py`,
the manifest tracks the ancestor directory `a` even though no directory
map at `a` holds a file, so `directories` is not the set of non-root
directories whose map holds at least one file. -/
theorem directoriesCounterexample :
    "a" ∈ (updateFile emptyStore "a/b/f.py" "h1" "python" 1 []).manifest.directories ∧
    "a" ∉ dirsHoldingFiles (updateFile emptyStore "a/b/f.py" "h1" "python" 1 []) := by
  decide

/-- C4 (amended): after any operation sequence, `directories` is exactly
the set of non-root directories with a tracked file at or below them
(ancestors included); no persisted directory map is empty — one emptied by
`remove_file` is deleted and dropped from tracking — removing the last
file leaves `directories = []`; and `update_file` records the file's
directory and every ancestor up to but excluding the root. -/
theorem directoriesTrackAncestors (ops : List StoreOp) :
    (∀ d, d ∈ (applyOps ops).manifest.directories ↔
      (d ≠ "" ∧ hasFileBelow (applyOps ops).dirmaps d = true)) ∧
    (∀ p ∈ (applyOps ops).dirmaps, p.2.files ≠ []) ∧
    (getAllFiles (applyOps ops) = [] → (applyOps ops).manifest.directories = []) ∧
    (∀ relPath hash language lineCount symbols, ∀ d ∈ ancestorDirs (parentDir relPath),
      d ∈ (updateFile (applyOps ops) relPath hash language lineCount
        symbols).manifest.directories) := by
  obtain ⟨h1, h2⟩ := storeInv_applyOps ops
  refine ⟨h2, h1, ?_, ?_⟩
  · intro hall
    have hdm : (applyOps ops).dirmaps = [] := by
      rw [getAllFiles, List.flatMap_eq_nil_iff] at hall
      rcases hd : (applyOps ops).dirmaps with _ | ⟨p, rest⟩
      · rfl
      · exfalso
        apply h1 p (hd ▸ List.mem_cons_self p rest)
        have := hall p (hd ▸ List.mem_cons_self p rest)
        exact List.map_eq_nil_iff.mp this
    rw [List.eq_nil_iff_forall_not_mem]
    intro d hd
    rw [h2 d, hdm] at hd
    rw [hasFileBelow_iff] at hd
    obtain ⟨p, hp, _⟩ := hd.2
    simp at hp
  · intro relPath hash language lineCount symbols d hd
    simp only [updateFile]
    exact (mem_addDirs _ _ _).mpr (Or.inr hd)

/-- C4 witness: concrete runs of `directoriesTrackAncestors` — the
ancestor `a` is tracked after indexing `a/b/f.py`, and removing that last
file empties `directories`. -/
theorem directoriesTrackAncestorsWitness :
    "a" ∈ (applyOps [.update "a/b/f.py" "h1" "python" 1 []]).manifest.directories ∧
    (applyOps [.update "a/b/f.py" "h1" "python" 1 [],
      .remove "a/b/f.py"]).manifest.directories = [] :=
  ⟨((directoriesTrackAncestors [.update "a/b/f.py" "h1" "python" 1 []]).1 "a").mpr
      ⟨by decide, by decide⟩,
    (directoriesTrackAncestors [.update "a/b/f.py" "h1" "python" 1 [],
      .remove "a/b/f.py"]).2.2.1 (by decide)⟩

theorem manifestPath_ne_dirMapPath (d : String) : manifestFilePath ≠ dirMapFilePath d := by
  intro h
  have hlen : manifestFilePath.data.length = (dirMapFilePath d).data.length := by rw [h]
  rw [dirMapFilePath] at hlen
  simp only [String.data_append, List.length_append] at hlen
  rw [(by decide : manifestFilePath.data.length = 22),
    (by decide : (".codemap/" : String).data.length = 9),
    (by decide : ("/.codemap.json" : String).data.length = 14)] at hlen
  omega

theorem dirMapFilePath_inj {d1 d2 : String} (h : dirMapFilePath d1 = dirMapFilePath d2) :
    d1 = d2 := by
  apply strings_eq_of_data_eq
  have hd : (dirMapFilePath d1).data = (dirMapFilePath d2).data := by rw [h]
  rw [dirMapFilePath, dirMapFilePath] at hd
  simp only [String.data_append, List.append_assoc] at hd
  exact List.append_cancel_right (List.append_cancel_left hd)

theorem toList_ofList (l : List Symbol) : (SymbolList.ofList l).toList = l := by
  induction l with
  | nil => rfl
  | cons s rest ih => rw [SymbolList.ofList, SymbolList.toList, ih]

theorem entry_roundtrip (e : FileEntry) : entryFromDict (entryToDict e) = some e := by
  obtain ⟨h, ia, lang, n, syms⟩ := e
  simp [entryToDict, entryFromDict, jLookup, symbol_roundtrip.2, toList_ofList]

theorem files_roundtrip (fl : List (String × FileEntry)) :
    filesFromJObj (filesToJObj fl) = some fl := by
  induction fl with
  | nil => rfl
  | cons p rest ih =>
    obtain ⟨b, e⟩ := p
    rw [filesToJObj, filesFromJObj, entry_roundtrip, ih]

theorem dirMap_roundtrip (dm : DirectoryMap) : dirMapFromDict (dirMapToDict dm) = some dm := by
  obtain ⟨v, d, fl⟩ := dm
  simp [dirMapToDict, dirMapFromDict, jLookup, files_roundtrip]

theorem strings_roundtrip (l : List String) : stringsFromJArr (stringsToJArr l) = some l := by
  induction l with
  | nil => rfl
  | cons s rest ih => rw [stringsToJArr, stringsFromJArr, ih]

theorem manifest_roundtrip (m : RootManifest) (rootFiles : List (String × FileEntry)) :
    manifestFromDict (manifestToDict m rootFiles) = some (m, rootFiles) := by
  obtain ⟨v, r, config, dirs, ⟨tf, ts⟩⟩ := m
  simp [manifestToDict, manifestFromDict, jLookup, strings_roundtrip, files_roundtrip]

theorem lookupA_map_dirPaths (d : String) (M : List (String × DirectoryMap)) :
    lookupA (dirMapFilePath d)
      (M.map (fun p => (dirMapFilePath p.1, Stored.json (dirMapToDict p.2)))) =
      (lookupA d M).map (fun dm => Stored.json (dirMapToDict dm)) := by
  induction M with
  | nil => rfl
  | cons p rest ih =>
    rw [List.map_cons, lookupA, lookupA]
    by_cases h : d = p.1
    · rw [if_pos (by rw [h]), if_pos h]
      rfl
    · rw [if_neg (fun hc => h (dirMapFilePath_inj hc)), if_neg h, ih]

theorem lookupA_filter_ne_root (d : String) (hd : d ≠ "")
    (M : List (String × DirectoryMap)) :
    lookupA d (M.filter (fun p => p.1 ≠ "")) = lookupA d M := by
  induction M with
  | nil => rfl
  | cons p rest ih =>
    by_cases hp : p.1 = ""
    · rw [List.filter_cons_of_neg (by simp [hp]), lookupA,
        if_neg (fun hc => hd (hc.trans hp)), ih]
    · rw [List.filter_cons_of_pos (by simp [hp]), lookupA, lookupA, ih]

theorem lookupA_save_dirMap (s : MapStore) (d : String) (hd : d ≠ "") :
    lookupA (dirMapFilePath d) (save s) =
      (lookupA d s.dirmaps).map (fun dm => Stored.json (dirMapToDict dm)) := by
  rw [save, lookupA, if_neg (fun hc => manifestPath_ne_dirMapPath d hc.symm),
    lookupA_map_dirPaths, lookupA_filter_ne_root d hd]

theorem loadDirMaps_save (s : MapStore) (ds : List String) (h : ∀ d ∈ ds, d ≠ "") :
    loadDirMaps (save s) ds =
      ds.filterMap (fun d => (lookupA d s.dirmaps).map (fun dm => (d, dm))) := by
  induction ds with
  | nil => rfl
  | cons d rest ih =>
    have ihr := ih (fun x hx => h x (List.mem_cons_of_mem d hx))
    rw [loadDirMaps, lookupA_save_dirMap s d (h d (List.mem_cons_self _ _)),
      List.filterMap_cons]
    rcases hl : lookupA d s.dirmaps with _ | dm
    · rw [Option.map_none']
      exact ihr
    · rw [Option.map_some']
      show (match dirMapFromDict (dirMapToDict dm) with
        | some dm2 => (d, dm2) :: loadDirMaps (save s) rest
        | none => loadDirMaps (save s) rest) = _
      rw [dirMap_roundtrip]
      show (d, dm) :: loadDirMaps (save s) rest = _
      rw [ihr]
      rfl

theorem load_save (s : MapStore) (hroot : ∀ d ∈ s.manifest.directories, d ≠ "") :
    load (save s) = .ok ⟨s.manifest,
      ("", ⟨storeVersion, "",
        ((lookupA "" s.dirmaps).map DirectoryMap.files).getD []⟩) ::
        s.manifest.directories.filterMap
          (fun d => (lookupA d s.dirmaps).map (fun dm => (d, dm)))⟩ := by
  rw [load]
  have hhead : lookupA manifestFilePath (save s) =
      some (.json (manifestToDict s.manifest
        (((lookupA "" s.dirmaps).map DirectoryMap.files).getD []))) := by
    rw [save, lookupA, if_pos rfl]
  rw [hhead]
  show (match manifestFromDict (manifestToDict s.manifest
      (((lookupA "" s.dirmaps).map DirectoryMap.files).getD [])) with
    | none => Except.ok emptyStore
    | some (m, rootFiles) =>
      Except.ok ⟨m, ("", ⟨storeVersion, "", rootFiles⟩) ::
        loadDirMaps (save s) m.directories⟩) = _
  rw [manifest_roundtrip]
  show Except.ok (⟨s.manifest, ("", ⟨storeVersion, "",
      ((lookupA "" s.dirmaps).map DirectoryMap.files).getD []⟩) ::
      loadDirMaps (save s) s.manifest.directories⟩ : MapStore) = _
  rw [loadDirMaps_save s _ hroot]

theorem lookupA_isSome_of_mem {α : Type} {p : String × α} {M : List (String × α)}
    (hp : p ∈ M) : (lookupA p.1 M).isSome := by
  induction M with
  | nil => simp at hp
  | cons q rest ih =>
    rw [lookupA]
    by_cases h : p.1 = q.1
    · rw [if_pos h]; rfl
    · rcases List.mem_cons.mp hp with hq | hq
      · exact absurd (by rw [hq]) h
      · rw [if_neg h]; exact ih hq

theorem perm_cons_eraseA {α : Type} {k : String} {v : α} {M : List (String × α)}
    (h : lookupA k M = some v) : M.Perm ((k, v) :: eraseA k M) := by
  induction M with
  | nil => simp [lookupA] at h
  | cons q rest ih =>
    rw [lookupA] at h
    by_cases hk : k = q.1
    · rw [if_pos hk] at h
      obtain rfl : q.2 = v := Option.some_inj.mp h
      rw [eraseA, if_pos hk]
      have : (k, q.2) = q := by rw [hk]
      rw [this]
    · rw [if_neg hk] at h
      rw [eraseA, if_neg hk]
      exact ((ih h).cons q).trans (List.Perm.swap (k, v) q (eraseA k rest))

theorem eraseA_sublist {α : Type} (k : String) (M : List (String × α)) :
    (eraseA k M).Sublist M := by
  induction M with
  | nil => simp [eraseA]
  | cons q rest ih =>
    rw [eraseA]
    split
    · exact List.sublist_cons_self q rest
    · exact List.Sublist.cons₂ q ih

theorem lookupA_eraseA_ne {α : Type} {k d : String} (hk : k ≠ d) (M : List (String × α)) :
    lookupA k (eraseA d M) = lookupA k M := by
  induction M with
  | nil => rfl
  | cons q rest ih =>
    rw [eraseA, lookupA]
    by_cases hd : d = q.1
    · rw [if_pos hd, if_neg (fun hc => hk (hc.trans hd.symm))]
    · rw [if_neg hd, lookupA, ih]

theorem mem_eraseA_iff_of_nodup {α : Type} {p : String × α} {k : String}
    {M : List (String × α)} (hnd : (M.map Prod.fst).Nodup) :
    p ∈ eraseA k M ↔ p ∈ M ∧ p.1 ≠ k := by
  induction M with
  | nil => simp [eraseA]
  | cons q rest ih =>
    rw [List.map_cons, List.nodup_cons] at hnd
    rw [eraseA]
    by_cases hk : k = q.1
    · rw [if_pos hk]
      constructor
      · intro hp
        refine ⟨List.mem_cons_of_mem q hp, fun hpk => ?_⟩
        exact hnd.1 (by rw [← hk, ← hpk]; exact List.mem_map_of_mem Prod.fst hp)
      · rintro ⟨hp, hpk⟩
        rcases List.mem_cons.mp hp with h | h
        · exact absurd (h ▸ hk.symm) hpk
        · exact h
    · rw [if_neg hk]
      constructor
      · intro hp
        rcases List.mem_cons.mp hp with h | h
        · exact ⟨h ▸ List.mem_cons_self q rest, h ▸ (fun hc => hk hc.symm)⟩
        · have := (ih hnd.2).mp h
          exact ⟨List.mem_cons_of_mem q this.1, this.2⟩
      · rintro ⟨hp, hpk⟩
        rcases List.mem_cons.mp hp with h | h
        · exact h ▸ List.mem_cons_self q _
        · exact List.mem_cons_of_mem q ((ih hnd.2).mpr ⟨h, hpk⟩)

theorem lookupA_filterMap_not_mem (M : List (String × DirectoryMap)) (ds : List String)
    (k : String) (hk : k ∉ ds) :
    lookupA k (ds.filterMap (fun d => (lookupA d M).map (fun dm => (d, dm)))) = none := by
  induction ds with
  | nil => rfl
  | cons d rest ih =>
    rw [List.filterMap_cons]
    have hkd : k ≠ d := fun h => hk (h ▸ List.mem_cons_self d rest)
    have hkr : k ∉ rest := fun h => hk (List.mem_cons_of_mem d h)
    rcases lookupA d M with _ | dm
    · exact ih hkr
    · rw [Option.map_some', lookupA, if_neg hkd]
      exact ih hkr

theorem lookupA_filterMap_mem (M : List (String × DirectoryMap)) (ds : List String)
    (k : String) (hk : k ∈ ds) (hnd : ds.Nodup) :
    lookupA k (ds.filterMap (fun d => (lookupA d M).map (fun dm => (d, dm)))) =
      lookupA k M := by
  induction ds with
  | nil => simp at hk
  | cons d rest ih =>
    rw [List.nodup_cons] at hnd
    rw [List.filterMap_cons]
    by_cases hkd : k = d
    · subst hkd
      rcases hl : lookupA k M with _ | dm
      · rw [Option.map_none']
        exact lookupA_filterMap_not_mem M rest k hnd.1
      · rw [Option.map_some', lookupA, if_pos rfl]
    · have hkr : k ∈ rest := by
        rcases List.mem_cons.mp hk with h | h
        · exact absurd h hkd
        · exact h
      rcases lookupA d M with _ | dm
      · exact ih hkr hnd.2
      · rw [Option.map_some', lookupA, if_neg hkd]
        exact ih hkr hnd.2

theorem keys_eraseA_nodup {α : Type} {k : String} {M : List (String × α)}
    (hnd : (M.map Prod.fst).Nodup) : ((eraseA k M).map Prod.fst).Nodup :=
  hnd.sublist ((eraseA_sublist k M).map Prod.fst)

theorem perm_filterMap_lookup (ds : List String) :
    ∀ M : List (String × DirectoryMap), ds.Nodup → (M.map Prod.fst).Nodup →
      (∀ p ∈ M, p.1 ∈ ds) →
      (ds.filterMap (fun d => (lookupA d M).map (fun dm => (d, dm)))).Perm M := by
  induction ds with
  | nil =>
    intro M _ _ hsub
    have : M = [] := by
      rw [List.eq_nil_iff_forall_not_mem]
      intro p hp
      simpa using hsub p hp
    rw [this]
    rfl
  | cons d rest ih =>
    intro M hnds hndM hsub
    rw [List.nodup_cons] at hnds
    rw [List.filterMap_cons]
    rcases hl : lookupA d M with _ | dm
    · have hsub2 : ∀ p ∈ M, p.1 ∈ rest := by
        intro p hp
        rcases List.mem_cons.mp (hsub p hp) with h | h
        · exfalso
          have := lookupA_isSome_of_mem hp
          rw [h, hl] at this
          simp at this
        · exact h
      rw [Option.map_none']
      exact ih M hnds.2 hndM hsub2
    · rw [Option.map_some']
      have hcongr : rest.filterMap (fun x => (lookupA x M).map (fun dm => (x, dm))) =
          rest.filterMap (fun x => (lookupA x (eraseA d M)).map (fun dm => (x, dm))) := by
        apply List.filterMap_congr
        intro x hx
        exact congrArg (Option.map _)
          (lookupA_eraseA_ne (fun hc => hnds.1 (by rw [← hc]; exact hx)) M).symm
      rw [hcongr]
      have hperm := ih (eraseA d M) hnds.2 (keys_eraseA_nodup hndM) ?_
      · exact (hperm.cons (d, dm)).trans (perm_cons_eraseA hl).symm
      · intro p hp
        have hmem := (mem_eraseA_iff_of_nodup hndM).mp hp
        rcases List.mem_cons.mp (hsub p hmem.1) with h | h
        · exact absurd h hmem.2
        · exact h

theorem eraseA_root_eq_filter (M : List (String × DirectoryMap))
    (hnd : (M.map Prod.fst).Nodup) :
    eraseA "" M = M.filter (fun p => p.1 ≠ "") := by
  induction M with
  | nil => rfl
  | cons q rest ih =>
    rw [List.map_cons, List.nodup_cons] at hnd
    rw [eraseA]
    by_cases hq : q.1 = ""
    · rw [if_pos hq.symm, List.filter_cons_of_neg (by simp [hq])]
      symm
      rw [List.filter_eq_self]
      intro p hp
      simp only [decide_eq_true_eq]
      intro hpk
      exact hnd.1 (by rw [hq, ← hpk]; exact List.mem_map_of_mem Prod.fst hp)
    · rw [if_neg (fun hc => hq hc.symm), List.filter_cons_of_pos (by simp [hq]), ih hnd.2]

theorem eraseA_of_lookupA_none {α : Type} {k : String} {M : List (String × α)}
    (h : lookupA k M = none) : eraseA k M = M := by
  induction M with
  | nil => rfl
  | cons q rest ih =>
    rw [lookupA] at h
    by_cases hk : k = q.1
    · rw [if_pos hk] at h
      exact absurd h (by simp)
    · rw [if_neg hk] at h
      rw [eraseA, if_neg hk, ih h]

theorem joinWith_splitBy (p : Char → Bool) (sep : Char) (hp : ∀ c, p c = true → c = sep) :
    ∀ cs : List Char, joinWith sep (splitBy p cs) = cs := by
  intro cs
  induction cs with
  | nil => rfl
  | cons c rest ih =>
    rw [splitBy]
    by_cases hc : p c
    · rw [if_pos hc]
      rcases hs : splitBy p rest with _ | ⟨w, ws⟩
      · exact absurd hs (splitBy_ne_nil p rest)
      · have hj : joinWith sep ([] :: w :: ws) = sep :: joinWith sep (w :: ws) := rfl
        rw [hs] at ih
        rw [hj, ih, hp c hc]
    · rw [if_neg hc]
      rcases hs : splitBy p rest with _ | ⟨w, ws⟩
      · exact absurd hs (splitBy_ne_nil p rest)
      · show joinWith sep ((c :: w) :: ws) = c :: rest
        rw [hs] at ih
        cases ws with
        | nil =>
          have h1 : joinWith sep [c :: w] = c :: w := rfl
          have h2 : joinWith sep [w] = w := rfl
          rw [h2] at ih
          rw [h1, ih]
        | cons w2 ws2 =>
          have h1 : joinWith sep ((c :: w) :: w2 :: ws2) =
              (c :: w) ++ sep :: joinWith sep (w2 :: ws2) := rfl
          have h2 : joinWith sep (w :: w2 :: ws2) =
              w ++ sep :: joinWith sep (w2 :: ws2) := rfl
          rw [h2] at ih
          rw [h1, List.cons_append, ih]

theorem self_mem_ancestorDirs {d : String} (hd : d ≠ "") : d ∈ ancestorDirs d := by
  rw [ancestorDirs, if_neg hd, List.mem_filter]
  refine ⟨List.mem_map.mpr ⟨(pathParts d).length - 1, ?_, ?_⟩, decide_eq_true hd⟩
  · rw [List.mem_range]
    have hlen : 0 < (pathParts d).length :=
      List.length_pos.mpr (splitBy_ne_nil (fun c => c == '/') d.data)
    omega
  · have hlen : 0 < (pathParts d).length :=
      List.length_pos.mpr (splitBy_ne_nil (fun c => c == '/') d.data)
    rw [Nat.sub_add_cancel hlen, List.take_length, pathParts,
      joinWith_splitBy (fun c => c == '/') '/' (fun c hc => eq_of_beq hc) d.data]

theorem mem_keys_insertA {α : Type} {x k : String} {v : α} {M : List (String × α)}
    (h : x ∈ (insertA k v M).map Prod.fst) : x = k ∨ x ∈ M.map Prod.fst := by
  obtain ⟨p, hp, hx⟩ := List.mem_map.mp h
  rcases mem_insertA hp with rfl | hp2
  · exact Or.inl hx.symm
  · exact Or.inr (hx ▸ List.mem_map_of_mem Prod.fst hp2)

theorem keys_insertA_nodup {α : Type} (k : String) (v : α) :
    ∀ M : List (String × α), (M.map Prod.fst).Nodup → ((insertA k v M).map Prod.fst).Nodup := by
  intro M
  induction M with
  | nil => intro _; simp [insertA]
  | cons q rest ih =>
    intro hnd
    rw [List.map_cons, List.nodup_cons] at hnd
    rw [insertA]
    by_cases hk : k = q.1
    · rw [if_pos hk, List.map_cons, List.nodup_cons]
      exact ⟨fun hc => hnd.1 (by rw [← hk]; exact hc), hnd.2⟩
    · rw [if_neg hk, List.map_cons, List.nodup_cons]
      refine ⟨fun hc => ?_, ih hnd.2⟩
      rcases mem_keys_insertA hc with h | h
      · exact hk h.symm
      · exact hnd.1 h

theorem addDirs_nodup (A : List String) :
    ∀ D : List String, D.Nodup → (addDirs A D).Nodup := by
  induction A with
  | nil => exact fun D h => h
  | cons a A ih =>
    intro D hD
    show (addDirs A (if a ∈ D then D else D ++ [a])).Nodup
    by_cases h : a ∈ D
    · rw [if_pos h]; exact ih D hD
    · rw [if_neg h]
      refine ih _ (List.Nodup.append hD (List.nodup_singleton a) ?_)
      intro x hx hxa
      rw [List.mem_singleton] at hxa
      exact h (hxa ▸ hx)

theorem wf4_of_storeInv {s : MapStore} (h : storeInv s) :
    ∀ p ∈ s.dirmaps, p.1 ≠ "" → p.1 ∈ s.manifest.directories := by
  intro p hp hne
  rw [h.2 p.1]
  refine ⟨hne, ?_⟩
  rw [hasFileBelow_iff]
  exact ⟨p, hp, self_mem_ancestorDirs hne, h.1 p hp⟩

theorem wf_applyOp {s : MapStore} (hw : wfStore s) (hi : storeInv s) (op : StoreOp) :
    wfStore (applyOp s op) := by
  obtain ⟨hw1, hw2, hw3, _⟩ := hw
  have h4 := wf4_of_storeInv (storeInv_applyOp s op hi)
  cases op with
  | update relPath hash language lineCount symbols =>
    refine ⟨?_, ?_, ?_, h4⟩
    · simp only [applyOp, updateFile]
      exact keys_insertA_nodup _ _ _ hw1
    · simp only [applyOp, updateFile]
      exact addDirs_nodup _ _ hw2
    · simp only [applyOp, updateFile]
      intro hc
      rcases (mem_addDirs _ _ _).mp hc with h | h
      · exact hw3 h
      · exact mem_ancestorDirs_ne_root h rfl
  | remove relPath =>
    have key : ((removeFile s relPath).2.dirmaps.map Prod.fst).Nodup ∧
        (removeFile s relPath).2.manifest.directories.Nodup ∧
        "" ∉ (removeFile s relPath).2.manifest.directories := by
      simp only [removeFile]
      split
      · exact ⟨hw1, hw2, hw3⟩
      · split
        · exact ⟨hw1, hw2, hw3⟩
        · split
          · exact ⟨keys_eraseA_nodup hw1, List.Nodup.filter _ hw2,
              fun hc => hw3 (List.mem_filter.mp hc).1⟩
          · exact ⟨keys_insertA_nodup _ _ _ hw1, hw2, hw3⟩
    exact ⟨key.1, key.2.1, key.2.2, h4⟩
  | stats => exact ⟨hw1, hw2, hw3, h4⟩
  | meta root config => exact ⟨hw1, hw2, hw3, h4⟩

theorem wf_applyOps (ops : List StoreOp) : wfStore (applyOps ops) := by
  have hwe : wfStore emptyStore := by decide
  have hie : storeInv emptyStore := by
    constructor
    · intro p hp; simp [emptyStore] at hp
    · intro d; simp [emptyStore, hasFileBelow]
  rw [applyOps]
  have key : ∀ t : MapStore, wfStore t → storeInv t →
      wfStore (ops.foldl applyOp t) ∧ storeInv (ops.foldl applyOp t) := by
    induction ops with
    | nil => exact fun t hw hi => ⟨hw, hi⟩
    | cons op ops ih =>
      exact fun t hw hi => ih _ (wf_applyOp hw hi op) (storeInv_applyOp t op hi)
  exact (key emptyStore hwe hie).1

theorem filterMap_lookup_perm_eraseRoot (s : MapStore)
    (hw1 : (s.dirmaps.map Prod.fst).Nodup) (hw2 : s.manifest.directories.Nodup)
    (hw3 : "" ∉ s.manifest.directories)
    (hw4 : ∀ p ∈ s.dirmaps, p.1 ≠ "" → p.1 ∈ s.manifest.directories) :
    (s.manifest.directories.filterMap
        (fun d => (lookupA d s.dirmaps).map (fun dm => (d, dm)))).Perm
      (eraseA "" s.dirmaps) := by
  have hcongr : s.manifest.directories.filterMap
      (fun d => (lookupA d s.dirmaps).map (fun dm => (d, dm))) =
      s.manifest.directories.filterMap
        (fun d => (lookupA d (eraseA "" s.dirmaps)).map (fun dm => (d, dm))) := by
    apply List.filterMap_congr
    intro d hd
    refine congrArg (Option.map _)
      (lookupA_eraseA_ne (fun hc => hw3 ?_) s.dirmaps).symm
    rw [← hc]
    exact hd
  rw [hcongr]
  refine perm_filterMap_lookup s.manifest.directories (eraseA "" s.dirmaps) hw2
    (keys_eraseA_nodup hw1) ?_
  intro p hp
  have hm := (mem_eraseA_iff_of_nodup hw1).mp hp
  exact hw4 p hm.1 hm.2

theorem sum_over_loaded (s : MapStore) (hw : wfStore s)
    (g : List (String × FileEntry) → Nat) (hg0 : g [] = 0)
    (rdm : DirectoryMap)
    (hrdm : rdm.files = ((lookupA "" s.dirmaps).map DirectoryMap.files).getD []) :
    (List.map (fun p => g p.2.files)
        (("", rdm) :: s.manifest.directories.filterMap
          (fun d => (lookupA d s.dirmaps).map (fun dm => (d, dm))))).sum =
      (List.map (fun p => g p.2.files) s.dirmaps).sum := by
  obtain ⟨hw1, hw2, hw3, hw4⟩ := hw
  have hperm := filterMap_lookup_perm_eraseRoot s hw1 hw2 hw3 hw4
  have hsum : (List.map (fun p => g p.2.files) (s.manifest.directories.filterMap
      (fun d => (lookupA d s.dirmaps).map (fun dm => (d, dm))))).sum =
      (List.map (fun p => g p.2.files) (eraseA "" s.dirmaps)).sum :=
    (hperm.map _).sum_eq
  rw [List.map_cons, List.sum_cons, hsum]
  show g rdm.files + _ = _
  rw [hrdm]
  rcases hl : lookupA "" s.dirmaps with _ | dm0
  · rw [eraseA_of_lookupA_none hl]
    show g [] + _ = _
    rw [hg0, Nat.zero_add]
  · have hperm2 := (perm_cons_eraseA hl).map (fun p => g p.2.files)
    rw [hperm2.sum_eq, List.map_cons, List.sum_cons]
    rfl

theorem load_save_props (s : MapStore) (hw : wfStore s) :
    ∃ s2 : MapStore, load (save s) = Except.ok s2 ∧
      s2.manifest = s.manifest ∧
      (∀ relPath, getFile s2 relPath = getFile s relPath) ∧
      (updateStats s2).manifest.stats = (updateStats s).manifest.stats := by
  have hroot : ∀ d ∈ s.manifest.directories, d ≠ "" := by
    intro d hd hc
    rw [hc] at hd
    exact hw.2.2.1 hd
  refine ⟨_, load_save s hroot, rfl, ?_, ?_⟩
  · intro relPath
    rw [getFile, getFile]
    by_cases hd : parentDir relPath = ""
    · rw [hd, lookupA, if_pos rfl]
      rcases hl : lookupA "" s.dirmaps with _ | dm0
      · rfl
      · rfl
    · rw [lookupA, if_neg hd]
      by_cases hmem : parentDir relPath ∈ s.manifest.directories
      · rw [lookupA_filterMap_mem s.dirmaps _ _ hmem hw.2.1]
      · rw [lookupA_filterMap_not_mem s.dirmaps _ _ hmem]
        rcases hl : lookupA (parentDir relPath) s.dirmaps with _ | dm
        · rfl
        · exact absurd (hw.2.2.2 _ (lookupA_some_mem hl) hd) hmem
  · have h1 := sum_over_loaded s hw (fun fl => fl.length) rfl
      (⟨storeVersion, "", ((lookupA "" s.dirmaps).map DirectoryMap.files).getD []⟩ :
        DirectoryMap) rfl
    have h2 := sum_over_loaded s hw
      (fun fl => (fl.map (fun f => entrySymbolCount f.2)).sum) rfl
      (⟨storeVersion, "", ((lookupA "" s.dirmaps).map DirectoryMap.files).getD []⟩ :
        DirectoryMap) rfl
    exact congrArg₂ Stats.mk h1 h2

/-- C7: every store reachable by the public operations is well-formed, and
for every well-formed store, `save` followed by `load` succeeds and
reproduces an equivalent manifest: the same `directories` list, the same
file entry at every tracked relative path, and the same stats after
`update_stats`. -/
theorem saveLoadRoundTrip :
    (∀ ops : List StoreOp, wfStore (applyOps ops)) ∧
    ∀ s : MapStore, wfStore s →
      ∃ s2 : MapStore, load (save s) = Except.ok s2 ∧
        s2.manifest.directories = s.manifest.directories ∧
        (∀ relPath, getFile s2 relPath = getFile s relPath) ∧
        (updateStats s2).manifest.stats = (updateStats s).manifest.stats := by
  refine ⟨wf_applyOps, fun s hw => ?_⟩
  obtain ⟨s2, hload, hman, hget, hstats⟩ := load_save_props s hw
  exact ⟨s2, hload, by rw [hman], hget, hstats⟩

/-- C7 witness: the round trip at the concrete three-file sample store —
its well-formedness is discharged by evaluation. -/
theorem saveLoadRoundTripWitness :
    ∃ s2 : MapStore, load (save demoStore) = Except.ok s2 ∧
      s2.manifest.directories = demoStore.manifest.directories ∧
      (∀ relPath, getFile s2 relPath = getFile demoStore relPath) ∧
      (updateStats s2).manifest.stats = (updateStats demoStore).manifest.stats :=
  saveLoadRoundTrip.2 demoStore (by decide)
